import Mathlib

/-!
# dtapac: the audit-orchestration pipeline of `main.go`

A shallow embedding of `exec` and `merge`: the trigger debouncer, the portfolio
scanner, the fan-in of audit-result channels and the submitter loop.

Sequential code (one scan pass, the submitter loop) is embedded as functions that
return the trace of effects they perform.  The goroutines of `merge` and the
submitter are embedded as a transition system driven by a scheduler.
-/

namespace Dtapac

/-! ## Data model -/

/-- The type `uuid.UUID`; its zero value `uuid.Nil` is `0`. -/
abbrev UUID := Nat

/-- The type `error` (the message of a non-nil error). -/
abbrev Err := String

deriving instance DecidableEq for Except

/-- The type `dtrack.Project`, reduced to the field `exec` reads and a name. -/
structure Project where
  uuid : UUID
  name : String
deriving DecidableEq, Repr

/-- The type `dtrack.Component`. -/
structure Component where
  uuid : UUID
  name : String
deriving DecidableEq, Repr

/-- The type `dtrack.Vulnerability`. -/
structure Vulnerability where
  uuid : UUID
  vulnId : String
deriving DecidableEq, Repr

/-- The type `dtrack.Finding`, an element of the list `Finding.GetAll` returns. -/
structure DTFinding where
  component : Component
  vulnerability : Vulnerability
deriving DecidableEq, Repr

/-- The type `dtrack.PolicyViolation`, an element of the list
`PolicyViolation.GetAllForProject` returns. -/
structure PolicyViolation where
  uuid : UUID
  component : Component
deriving DecidableEq, Repr

/-- The type `model.Finding`: the subject of a finding decision. -/
structure Finding where
  component : Component
  project : Project
  vulnerability : Vulnerability
deriving DecidableEq, Repr

/-- Modelled from the spec: the declaration of `model.Violation` (package
`internal/model`).  The fields follow the identifiers the source names in its
TODO comments (`subject.Component.UUID`, `subject.PolicyViolation.UUID`). -/
structure Violation where
  component : Component
  policyViolation : PolicyViolation
deriving DecidableEq, Repr

/-- The composite literal `model.Violation{}`: every field has its zero value. -/
def Violation.zero : Violation :=
  { component := { uuid := 0, name := "" },
    policyViolation := { uuid := 0, component := { uuid := 0, name := "" } } }

/-- Modelled from the spec: the declaration of `model.FindingAnalysis` (package
`internal/model`): a state, a justification, a response, a comment and a suppress
flag, the five fields `exec` reads. -/
structure FindingAnalysis where
  state : String
  justification : String
  response : String
  comment : String
  suppress : Bool
deriving DecidableEq, Repr

/-- The composite literal `model.FindingAnalysis{}`. -/
def FindingAnalysis.zero : FindingAnalysis :=
  { state := "", justification := "", response := "", comment := "", suppress := false }

/-- Modelled from the spec: the declaration of `model.ViolationAnalysis` (package
`internal/model`): a state, a comment and a suppress flag. -/
structure ViolationAnalysis where
  state : String
  comment : String
  suppress : Bool
deriving DecidableEq, Repr

/-- The composite literal `model.ViolationAnalysis{}`. -/
def ViolationAnalysis.zero : ViolationAnalysis :=
  { state := "", comment := "", suppress := false }

/-- The type `dtrack.AnalysisRequest`, with the eight fields `exec` sets. -/
structure AnalysisRequest where
  component : UUID
  project : UUID
  vulnerability : UUID
  state : String
  justification : String
  response : String
  comment : String
  suppressed : Bool
deriving DecidableEq, Repr

/-- The type `dtrack.ViolationAnalysisRequest`.  `exec` sets `state`, `comment` and
`suppressed`; `component` and `policyViolation` are the two fields of its TODO
comments. -/
structure ViolationAnalysisRequest where
  component : UUID
  policyViolation : UUID
  state : String
  comment : String
  suppressed : Bool
deriving DecidableEq, Repr

/-- A value travelling on a `chan any` of audit results, by dynamic type: the two
cases of the type switch of the submitter loop, and any other type. -/
inductive AuditResult where
  | analysisRequest (req : AnalysisRequest)
  | violationAnalysisRequest (req : ViolationAnalysisRequest)
  | other (description : String)
deriving DecidableEq, Repr

/-- A `context.Context`: `context.Background()`, or a cancellable context derived
from a parent (what `errgroup.WithContext` returns). -/
inductive Ctx where
  | background
  | withCancel (parent : Ctx)
deriving DecidableEq, Repr

/-- Cancelling the context `c` cancels `target`: `target` is `c` or is derived
from it.  The background context has no parent and is never cancelled. -/
def cancelReaches (c : Ctx) : Ctx → Bool
  | Ctx.background => false
  | Ctx.withCancel parent => decide (c = Ctx.withCancel parent) || cancelReaches c parent

/-- The fields of `options` that `exec` reads in the pipeline. -/
structure Options where
  watchBundle : String
  findingPolicyPath : String
  violationPolicyPath : String
deriving DecidableEq, Repr

/-- The subject handed to `opaClient.Decision` as its input. -/
inductive Subject where
  | finding (f : Finding)
  | violation (v : Violation)
deriving DecidableEq, Repr

/-- A call to an external collaborator, with its arguments. -/
inductive Call where
  | getAllProjects (ctx : Ctx)
  | getAllFindings (ctx : Ctx) (project : UUID) (suppressed : Bool)
  | getAllViolations (ctx : Ctx) (project : UUID) (suppressed : Bool)
  | decision (ctx : Ctx) (policyPath : String) (input : Subject)
  | submitAnalysis (ctx : Ctx) (req : AnalysisRequest)
  | submitViolationAnalysis (ctx : Ctx) (req : ViolationAnalysisRequest)
deriving DecidableEq, Repr

/-- The level of a log line. -/
inductive Level where
  | info
  | warn
  | error
deriving DecidableEq, Repr

/-- Which loop of a scan pass an item belongs to. -/
inductive Kind where
  | finding
  | violation
deriving DecidableEq, Repr

/-- The position of an item in a scan pass: the index `i` of its project in the
project loop, the loop it is in, and its index `j` in that loop. -/
structure Origin where
  project : Nat
  kind : Kind
  index : Nat
deriving DecidableEq, Repr

/-- One observable effect of the sequential code: a call to a collaborator, a log
line (level, message, the project it names), or a send on the scanner's
`auditChan`, recorded with the loop position it was made at. -/
inductive Effect where
  | call (c : Call)
  | log (level : Level) (msg : String) (project : Option UUID)
  | send (origin : Origin) (e : AuditResult)
deriving DecidableEq, Repr

/-- The external collaborators, as the results of their calls.  `pathJoin` is
`path.Join` of the standard library.  The fetch fields are `dtrack.FetchAll` over
the page function of the call; `submit` is the result of the n-th write call. -/
structure Env where
  pathJoin : String → String → String
  getProjects : Ctx → Except Err (List Project)
  getFindings : Ctx → UUID → Bool → Except Err (List DTFinding)
  getViolations : Ctx → UUID → Bool → Except Err (List PolicyViolation)
  decideFinding : Ctx → String → Finding → Except Err FindingAnalysis
  decideViolation : Ctx → String → Violation → Except Err ViolationAnalysis
  submit : Nat → Call → Option Err

/-! ## The auditors -/

/-- The closure `findingAuditor` of `exec`: `nil` when no finding policy path is
configured; otherwise it asks for a decision with `context.Background()`.  The
result carries the call that was made. -/
def findingAuditor (opts : Options) (env : Env) :
    Option (Finding → Call × Except Err FindingAnalysis) :=
  if opts.findingPolicyPath ≠ "" then
    some (fun finding =>
      (Call.decision Ctx.background (env.pathJoin opts.findingPolicyPath "/analysis")
          (Subject.finding finding),
        env.decideFinding Ctx.background (env.pathJoin opts.findingPolicyPath "/analysis")
          finding))
  else none

/-- The closure `violationAuditor` of `exec`. -/
def violationAuditor (opts : Options) (env : Env) :
    Option (Violation → Call × Except Err ViolationAnalysis) :=
  if opts.violationPolicyPath ≠ "" then
    some (fun violation =>
      (Call.decision Ctx.background (env.pathJoin opts.violationPolicyPath "/analysis")
          (Subject.violation violation),
        env.decideViolation Ctx.background (env.pathJoin opts.violationPolicyPath "/analysis")
          violation))
  else none

/-- The context `egCtx` of `exec`: `errgroup.WithContext(ctx)`. -/
def egCtx (ctx : Ctx) : Ctx := Ctx.withCancel ctx

/-! ## The portfolio scanner -/

/-- The request sent for a finding whose analysis is not the zero value. -/
def analysisRequestOf (finding : Finding) (analysis : FindingAnalysis) : AnalysisRequest :=
  { component := finding.component.uuid,
    project := finding.project.uuid,
    vulnerability := finding.vulnerability.uuid,
    state := analysis.state,
    justification := analysis.justification,
    response := analysis.response,
    comment := analysis.comment,
    suppressed := analysis.suppress }

/-- The request sent for a violation whose analysis is not the zero value: the
literal sets three fields, the two identifiers keep their zero value. -/
def violationRequestOf (analysis : ViolationAnalysis) : ViolationAnalysisRequest :=
  { component := 0,
    policyViolation := 0,
    state := analysis.state,
    comment := analysis.comment,
    suppressed := analysis.suppress }

/-- The subject built for the element `f` of the findings of `project`. -/
def findingOf (project : Project) (f : DTFinding) : Finding :=
  { component := f.component, project := project, vulnerability := f.vulnerability }

/-- The body of `for j := range findings` at index `j` of project `i`. -/
def findingsBody (fa : Finding → Call × Except Err FindingAnalysis) (i : Nat)
    (project : Project) (j : Nat) (f : DTFinding) : List Effect :=
  Effect.call (fa (findingOf project f)).1 ::
    (match (fa (findingOf project f)).2 with
      | Except.error _ => [Effect.log Level.error "failed to audit finding" none]
      | Except.ok analysis =>
        if analysis ≠ FindingAnalysis.zero then
          [Effect.send { project := i, kind := Kind.finding, index := j }
            (AuditResult.analysisRequest (analysisRequestOf (findingOf project f) analysis))]
        else [])

/-- The loop `for j := range findings` of project `i`, from index `j` on. -/
def findingsLoop (fa : Finding → Call × Except Err FindingAnalysis) (i : Nat)
    (project : Project) : Nat → List DTFinding → List Effect
  | _, [] => []
  | j, f :: rest => findingsBody fa i project j f ++ findingsLoop fa i project (j + 1) rest

/-- The body of `for range violations` at iteration `j` of project `i`: the
subject is `model.Violation{}` whatever the fetched violation is. -/
def violationsBody (va : Violation → Call × Except Err ViolationAnalysis) (i : Nat)
    (j : Nat) (_v : PolicyViolation) : List Effect :=
  Effect.call (va Violation.zero).1 ::
    (match (va Violation.zero).2 with
      | Except.error _ => [Effect.log Level.error "failed to audit violation" none]
      | Except.ok analysis =>
        if analysis ≠ ViolationAnalysis.zero then
          [Effect.send { project := i, kind := Kind.violation, index := j }
            (AuditResult.violationAnalysisRequest (violationRequestOf analysis))]
        else [])

/-- The loop `for range violations` of project `i`, from iteration `j` on. -/
def violationsLoop (va : Violation → Call × Except Err ViolationAnalysis) (i : Nat) :
    Nat → List PolicyViolation → List Effect
  | _, [] => []
  | j, v :: rest => violationsBody va i j v ++ violationsLoop va i (j + 1) rest

/-- The second half of the body of the project loop: `if violationAuditor != nil`. -/
def violationsPart (opts : Options) (env : Env) (ctx : Ctx) (i : Nat) (project : Project) :
    List Effect :=
  match violationAuditor opts env with
  | some va =>
    Effect.call (Call.getAllViolations (egCtx ctx) project.uuid false) ::
      (match env.getViolations (egCtx ctx) project.uuid false with
        | Except.error _ =>
          [Effect.log Level.error "failed to fetch policy violations" (some project.uuid)]
        | Except.ok violations => violationsLoop va i 0 violations)
  | none => [Effect.log Level.warn "violations auditing is disabled, skipping" none]

/-- The body of `for i, project := range projects`.  The `continue` of the
findings fetch error branch ends the iteration. -/
def projectBody (opts : Options) (env : Env) (ctx : Ctx) (i : Nat) (project : Project) :
    List Effect :=
  match findingAuditor opts env with
  | some fa =>
    Effect.call (Call.getAllFindings (egCtx ctx) project.uuid true) ::
      (match env.getFindings (egCtx ctx) project.uuid true with
        | Except.error _ =>
          [Effect.log Level.error "failed to fetch findings" (some project.uuid)]
        | Except.ok findings =>
          findingsLoop fa i project 0 findings ++ violationsPart opts env ctx i project)
  | none =>
    Effect.log Level.warn "findings auditing is disabled, skipping" none ::
      violationsPart opts env ctx i project

/-- The loop `for i, project := range projects`, from index `i` on. -/
def projectsLoop (opts : Options) (env : Env) (ctx : Ctx) : Nat → List Project → List Effect
  | _, [] => []
  | i, project :: rest =>
    projectBody opts env ctx i project ++ projectsLoop opts env ctx (i + 1) rest

/-- One iteration of `for range triggerChan`: one portfolio scan pass. -/
def scanPass (opts : Options) (env : Env) (ctx : Ctx) : List Effect :=
  Effect.log Level.info "starting portfolio analysis" none ::
    Effect.call (Call.getAllProjects (egCtx ctx)) ::
      (match env.getProjects (egCtx ctx) with
        | Except.error _ => [Effect.log Level.error "failed to fetch projects" none]
        | Except.ok projects =>
          projectsLoop opts env ctx 0 projects ++
            [Effect.log Level.info "portfolio analysis completed" none])

/-- The values sent on `auditChan` by a trace, in order. -/
def events : List Effect → List AuditResult
  | [] => []
  | Effect.send _ e :: rest => e :: events rest
  | _ :: rest => events rest

/-- The values a trace sent on `auditChan` from the loop position `o`. -/
def sendsAt (o : Origin) : List Effect → List AuditResult
  | [] => []
  | Effect.send o' e :: rest => if o' = o then e :: sendsAt o rest else sendsAt o rest
  | _ :: rest => sendsAt o rest

/-- The collaborator calls of a trace, in order. -/
def calls : List Effect → List Call
  | [] => []
  | Effect.call c :: rest => c :: calls rest
  | _ :: rest => calls rest

/-- The environment `env` with the project list replaced by `ps`. -/
def Env.withProjects (env : Env) (ps : List Project) : Env :=
  { env with getProjects := fun _ => Except.ok ps }

/-- The context a call was made with. -/
def Call.ctx : Call → Ctx
  | Call.getAllProjects c => c
  | Call.getAllFindings c _ _ => c
  | Call.getAllViolations c _ _ => c
  | Call.decision c _ _ => c
  | Call.submitAnalysis c _ => c
  | Call.submitViolationAnalysis c _ => c

/-- Whether a call is a policy decision call (`opaClient.Decision`). -/
def Call.isDecision : Call → Bool
  | Call.decision _ _ _ => true
  | _ => false

/-! ## The trigger debouncer -/

/-- The capacity of `triggerChan`: `make(chan struct{}, 1)`. -/
def triggerCap : Nat := 1

/-- How a `select` with one send case ended. -/
inductive SelectOutcome where
  | sent
  | dropped
  | blocked
deriving DecidableEq, Repr

/-- A `select` whose only case is a send on a buffered channel of capacity `cap`
that holds `pending` values and has no receiver waiting: the send goes through
when there is room; otherwise the `default` case runs when there is one, and the
statement blocks when there is none.  The result is the new number of pending
values and the outcome. -/
def selectSend (cap : Nat) (hasDefault : Bool) (pending : Nat) : Nat × SelectOutcome :=
  if pending < cap then (pending + 1, SelectOutcome.sent)
  else if hasDefault then (pending, SelectOutcome.dropped)
  else (pending, SelectOutcome.blocked)

/-- The notify step: `select { case triggerChan <- struct{}{}: default: }`. -/
def notify (pending : Nat) : Nat × SelectOutcome :=
  selectSend triggerCap true pending

/-- The consume step: the receive of `for range triggerChan`; `none` when the
buffer is empty and the receive has to wait. -/
def consume (pending : Nat) : Option Nat :=
  if 0 < pending then some (pending - 1) else none

/-- The loop `for revision := range bundleWatcher.Subscribe()` over the revisions
it receives, with no receive on `triggerChan` in between: the final number of
pending signals and the outcome of every `select`. -/
def debouncer : List String → Nat → Nat × List SelectOutcome
  | [], pending => (pending, [])
  | _ :: rest, pending =>
    ((debouncer rest (notify pending).1).1,
      (notify pending).2 :: (debouncer rest (notify pending).1).2)

/-! ## The submitter loop -/

/-- The loop `for auditResult := range auditChan` of the submitter over the values
the channel delivers before it is closed; `k` counts the write calls made so
far. -/
def submitterLoop (env : Env) (ctx : Ctx) : Nat → List AuditResult → List Effect
  | _, [] => []
  | k, AuditResult.analysisRequest res :: rest =>
    (Effect.call (Call.submitAnalysis (egCtx ctx) res) ::
      (match env.submit k (Call.submitAnalysis (egCtx ctx) res) with
        | some _ => [Effect.log Level.error "failed to submit analysis request" none]
        | none => [])) ++ submitterLoop env ctx (k + 1) rest
  | k, AuditResult.violationAnalysisRequest res :: rest =>
    (Effect.call (Call.submitViolationAnalysis (egCtx ctx) res) ::
      (match env.submit k (Call.submitViolationAnalysis (egCtx ctx) res) with
        | some _ =>
          [Effect.log Level.error "failed to submit violation analysis request" none]
        | none => [])) ++ submitterLoop env ctx (k + 1) rest
  | k, AuditResult.other _ :: rest => submitterLoop env ctx k rest

/-- The goroutine of the submitter: the trace of its loop and its return value
(`return nil`). -/
def submitter (env : Env) (ctx : Ctx) (merged : List AuditResult) : List Effect × Option Err :=
  (submitterLoop env ctx 0 merged, none)

/-- The write calls the claim expects for a merged sequence: one per
`AnalysisRequest` and one per `ViolationAnalysisRequest`, in order, the event
passed unchanged. -/
def expectedWrites (ctx : Ctx) : List AuditResult → List Call
  | [] => []
  | AuditResult.analysisRequest req :: rest =>
    Call.submitAnalysis (egCtx ctx) req :: expectedWrites ctx rest
  | AuditResult.violationAnalysisRequest req :: rest =>
    Call.submitViolationAnalysis (egCtx ctx) req :: expectedWrites ctx rest
  | AuditResult.other _ :: rest => expectedWrites ctx rest

/-! ## The fan-in `merge` -/

/-- Where an `output` goroutine of `merge` stands: at the receive of
`for n := range c`, at the send `out <- n`, or past `wg.Done()`. -/
inductive Worker (α : Type) where
  | receiving
  | sending (n : α)
  | finished
deriving DecidableEq, Repr

/-- An input channel with its `output` goroutine: what the channel still delivers
before it is closed, and where the goroutine stands. -/
structure Source (α : Type) where
  pending : List α
  worker : Worker α
deriving DecidableEq, Repr

/-- The capacity of `out`: `make(chan any, 1)`. -/
def outCap : Nat := 1

/-- The state of a `merge` call and of the reader of the channel it returned.
A value in `out` or `delivered` is paired with the index of the goroutine that
sent it. -/
structure MergeState (α : Type) where
  srcs : List (Source α)
  wg : Nat
  out : List (Nat × α)
  closed : Bool
  panicked : Bool
  delivered : List (Nat × α)
  readerDone : Bool
deriving DecidableEq, Repr

/-- The step the scheduler lets run next: goroutine `i` at its receive, goroutine
`i` at its send, the closing goroutine, or the reader of `out`. -/
inductive Move where
  | recv (i : Nat)
  | send (i : Nat)
  | close
  | read
deriving DecidableEq, Repr

/-- The state when `merge(cs...)` returns: `wg.Add(len(cs))`, one goroutine per
input channel, an empty `out`. -/
def merge {α : Type} (cs : List (List α)) : MergeState α :=
  { srcs := cs.map (fun c => { pending := c, worker := Worker.receiving }),
    wg := cs.length,
    out := [],
    closed := false,
    panicked := false,
    delivered := [],
    readerDone := false }

/-- The receive of `for n := range c` in goroutine `i`: it takes the next value of
the channel, or sees the channel closed, leaves the loop and calls `wg.Done()`.
Nothing happens when the goroutine is not at its receive. -/
def MergeState.recv {α : Type} (s : MergeState α) (i : Nat) : MergeState α :=
  match s.srcs[i]? with
  | some { pending := n :: rest, worker := Worker.receiving } =>
    { s with srcs := s.srcs.set i { pending := rest, worker := Worker.sending n } }
  | some { pending := [], worker := Worker.receiving } =>
    { s with srcs := s.srcs.set i { pending := [], worker := Worker.finished },
             wg := s.wg - 1 }
  | _ => s

/-- The send `out <- n` of goroutine `i`: it goes through when `out` has room and
waits otherwise; a send on a closed channel panics. -/
def MergeState.send {α : Type} (s : MergeState α) (i : Nat) : MergeState α :=
  match s.srcs[i]? with
  | some { pending := rest, worker := Worker.sending n } =>
    if s.closed then { s with panicked := true }
    else if s.out.length < outCap then
      { s with out := s.out ++ [(i, n)],
               srcs := s.srcs.set i { pending := rest, worker := Worker.receiving } }
    else s
  | _ => s

/-- The closing goroutine: `wg.Wait()` returns when the counter is zero, then
`close(out)` runs, once. -/
def MergeState.close {α : Type} (s : MergeState α) : MergeState α :=
  if s.wg = 0 ∧ s.closed = false then { s with closed := true } else s

/-- The reader of `out` (`for auditResult := range auditChan`): it receives the
oldest value of `out`, or sees `out` closed and drained and ends its loop, or
waits. -/
def MergeState.read {α : Type} (s : MergeState α) : MergeState α :=
  if s.readerDone then s
  else
    match s.out with
    | x :: rest => { s with out := rest, delivered := s.delivered ++ [x] }
    | [] => if s.closed then { s with readerDone := true } else s

/-- One step of the system.  A move that cannot run (a goroutine that is blocked
or gone) leaves the state as it is. -/
def MergeState.step {α : Type} (s : MergeState α) : Move → MergeState α
  | Move.recv i => s.recv i
  | Move.send i => s.send i
  | Move.close => s.close
  | Move.read => s.read

/-- The state after the moves of a schedule, in order. -/
def MergeState.run {α : Type} (s : MergeState α) : List Move → MergeState α
  | [] => s
  | m :: rest => (s.step m).run rest

/-- The values of a tagged sequence that goroutine `i` sent, in order. -/
def fromSource {α : Type} (i : Nat) : List (Nat × α) → List α
  | [] => []
  | (k, x) :: rest => if k = i then x :: fromSource i rest else fromSource i rest

/-- The value a goroutine holds between its receive and its send. -/
def Worker.held {α : Type} : Worker α → List α
  | Worker.sending n => [n]
  | _ => []

/-- The steps a source still has to make: three per pending value (receive, send,
read), and what its goroutine has left. -/
def Source.work {α : Type} (src : Source α) : Nat :=
  3 * src.pending.length +
    (match src.worker with
      | Worker.receiving => 1
      | Worker.sending _ => 3
      | Worker.finished => 0)

/-- Whether the goroutine of a source has not called `wg.Done()` yet, as 0 or 1. -/
def Source.active {α : Type} (src : Source α) : Nat :=
  match src.worker with
  | Worker.finished => 0
  | _ => 1

/-- The number of steps left before the reader's loop ends. -/
def MergeState.work {α : Type} (s : MergeState α) : Nat :=
  (s.srcs.map Source.work).sum + s.out.length +
    (if s.closed then 0 else 1) + (if s.readerDone then 0 else 1)

/-! ## The goroutines of `exec` -/

/-- Whether a call is a write to the system of record (`SubmitAnalysis` or
`SubmitViolationAnalysis`). -/
def Call.isWrite : Call → Bool
  | Call.submitAnalysis _ _ => true
  | Call.submitViolationAnalysis _ _ => true
  | _ => false

/-- The goroutine of the portfolio scanner, `for range triggerChan`, over the
triggers it receives: one scan pass per trigger. -/
def scannerTrace (opts : Options) (env : Env) (ctx : Ctx) : Nat → List Effect
  | 0 => []
  | triggers + 1 => scanPass opts env ctx ++ scannerTrace opts env ctx triggers

/-- The effects of the goroutine of the trigger debouncer,
`for revision := range bundleWatcher.Subscribe()`: one log line per revision (the
`select` on `triggerChan` is a channel operation, see `debouncer`). -/
def debouncerTrace : List String → List Effect
  | [] => []
  | _ :: rest => Effect.log Level.info "bundle updated" none :: debouncerTrace rest

/-- The goroutines that `exec` starts from code of this file. -/
inductive Goroutine where
  | debouncer
  | scanner
  | merger
  | submitter
deriving DecidableEq, Repr

/-- The start or the return of a write call to the system of record, with the
goroutine that made the call. -/
inductive CallEvent where
  | started (who : Goroutine) (c : Call)
  | returned (who : Goroutine) (c : Call) (err : Option Err)
deriving DecidableEq, Repr

/-- The goroutine that made the call of an event. -/
def CallEvent.who : CallEvent → Goroutine
  | CallEvent.started who _ => who
  | CallEvent.returned who _ _ => who

/-- A goroutine that runs a trace: the effects it still has to perform, and the
collaborator call it is inside of. -/
structure Routine where
  todo : List Effect
  inCall : Option Call
deriving DecidableEq, Repr

/-- The next step of a goroutine that runs a trace: it returns from the call it is
inside of, or enters the call that comes next, or performs the log line or the
send that comes next. -/
def Routine.next (r : Routine) : Routine :=
  match r.inCall with
  | some _ => { r with inCall := none }
  | none =>
    match r.todo with
    | Effect.call c :: rest => { todo := rest, inCall := some c }
    | _ :: rest => { todo := rest, inCall := none }
    | [] => r

/-- The pipeline of `exec` when a bundle is watched: the `merge` of the channel of
the live receiver and the channel of the scanner, the goroutines of the scanner
and of the debouncer, the write call the submitter loop is inside of, the write
calls that have started and not returned (whoever made them), the number of write
calls made, and their history. -/
structure SysState where
  m : MergeState AuditResult
  scanner : Routine
  debouncer : Routine
  current : Option Call
  inflight : List Call
  writes : Nat
  history : List CallEvent
deriving DecidableEq, Repr

/-- A step of the pipeline: a step of `merge` or of the reader, the return of the
write call of the submitter, a step of the scanner, or a step of the debouncer. -/
inductive SysMove where
  | merge (mv : Move)
  | ret
  | scan
  | debounce
deriving DecidableEq, Repr

/-- The pipeline when the goroutines have been started: the live receiver will
deliver `live`, the debouncer will see `revisions`, and the scanner will get
`triggers` triggers; its channel delivers the events its passes send.  (When an
event is sent is left to the scheduler of `merge`, which only adds runs.) -/
def SysState.init (opts : Options) (env : Env) (ctx : Ctx) (live : List AuditResult)
    (revisions : List String) (triggers : Nat) : SysState :=
  { m := merge [live, events (scannerTrace opts env ctx triggers)],
    scanner := { todo := scannerTrace opts env ctx triggers, inCall := none },
    debouncer := { todo := debouncerTrace revisions, inCall := none },
    current := none, inflight := [], writes := 0, history := [] }

/-- The submitter loop enters the write call `c`. -/
def SysState.enter (s : SysState) (c : Call) : SysState :=
  { s with current := some c, inflight := c :: s.inflight,
           history := s.history ++ [CallEvent.started Goroutine.submitter c] }

/-- What a step of the goroutine `r` of the goroutine kind `who` does to the write
calls: entering a write call starts it, returning from one ends it. -/
def SysState.routineStep (env : Env) (who : Goroutine) (r : Routine) (s : SysState) :
    SysState :=
  match r.inCall with
  | some c =>
    if c.isWrite then
      { s with inflight := s.inflight.erase c, writes := s.writes + 1,
               history := s.history ++ [CallEvent.returned who c (env.submit s.writes c)] }
    else s
  | none =>
    match r.todo with
    | Effect.call c :: _ =>
      if c.isWrite then
        { s with inflight := c :: s.inflight,
                 history := s.history ++ [CallEvent.started who c] }
      else s
    | _ => s

/-- One step of the pipeline.  The reader is the submitter loop: it receives only
when it is not inside a write call, and the type switch on the received value
enters `SubmitAnalysis` or `SubmitViolationAnalysis`, or neither.  The scanner and
the debouncer run their traces. -/
def SysState.step (env : Env) (ctx : Ctx) (s : SysState) : SysMove → SysState
  | SysMove.merge Move.read =>
    match s.current with
    | some _ => s
    | none =>
      match s.m.readerDone, s.m.out with
      | false, (_, AuditResult.analysisRequest res) :: _ =>
        SysState.enter { s with m := s.m.read }
          (Call.submitAnalysis (egCtx ctx) res)
      | false, (_, AuditResult.violationAnalysisRequest res) :: _ =>
        SysState.enter { s with m := s.m.read }
          (Call.submitViolationAnalysis (egCtx ctx) res)
      | _, _ => { s with m := s.m.read }
  | SysMove.merge mv => { s with m := s.m.step mv }
  | SysMove.ret =>
    match s.current with
    | some c =>
      { s with current := none, inflight := s.inflight.erase c, writes := s.writes + 1,
               history := s.history ++
                 [CallEvent.returned Goroutine.submitter c (env.submit s.writes c)] }
    | none => s
  | SysMove.scan =>
    { s.routineStep env Goroutine.scanner s.scanner with scanner := s.scanner.next }
  | SysMove.debounce =>
    { s.routineStep env Goroutine.debouncer s.debouncer with debouncer := s.debouncer.next }

/-- The pipeline after the moves of a schedule. -/
def SysState.run (env : Env) (ctx : Ctx) (s : SysState) : List SysMove → SysState
  | [] => s
  | mv :: rest => (s.step env ctx mv).run env ctx rest

/-- Scans a history of write calls with the number `depth` of calls in progress:
the number at the end, or `none` when a call started while another was in
progress or a return had no call to end. -/
def serialFrom : Nat → List CallEvent → Option Nat
  | depth, [] => some depth
  | depth, CallEvent.started _ _ :: rest =>
    if depth = 0 then serialFrom 1 rest else none
  | depth, CallEvent.returned _ _ _ :: rest =>
    if depth = 1 then serialFrom 0 rest else none

/-- No two write calls of the history overlap. -/
def serial (history : List CallEvent) : Bool :=
  (serialFrom 0 history).isSome

/-- A goroutine that neither is inside a write call nor has one left to make. -/
def Routine.quiet (r : Routine) : Prop :=
  (∀ c, Effect.call c ∈ r.todo → c.isWrite = false) ∧
    (∀ c, r.inCall = some c → c.isWrite = false)

/-! ## The expected events of a pass that meets no error -/

/-- The events for the findings `fs` of project `p` whose disposition `d` is not
the zero value, in the order of `fs`. -/
def findingEvents (p : Project) (d : DTFinding → FindingAnalysis) :
    List DTFinding → List AuditResult
  | [] => []
  | f :: rest =>
    if d f = FindingAnalysis.zero then findingEvents p d rest
    else AuditResult.analysisRequest (analysisRequestOf (findingOf p f) (d f)) ::
      findingEvents p d rest

/-- The events for the violations `vs` whose disposition `d` is not the zero
value, in the order of `vs`. -/
def violationEvents (d : PolicyViolation → ViolationAnalysis) :
    List PolicyViolation → List AuditResult
  | [] => []
  | v :: rest =>
    if d v = ViolationAnalysis.zero then violationEvents d rest
    else AuditResult.violationAnalysisRequest (violationRequestOf (d v)) ::
      violationEvents d rest

/-- The concatenation over the projects, in order, of the finding events of a
project (when finding auditing is on) followed by its violation events (when
violation auditing is on). -/
def expectedEvents (findingsOn violationsOn : Bool)
    (fsOf : Project → List DTFinding) (fd : Project → DTFinding → FindingAnalysis)
    (vsOf : Project → List PolicyViolation)
    (vd : Project → PolicyViolation → ViolationAnalysis) : List Project → List AuditResult
  | [] => []
  | p :: rest =>
    (if findingsOn then findingEvents p (fd p) (fsOf p) else []) ++
      (if violationsOn then violationEvents (vd p) (vsOf p) else []) ++
      expectedEvents findingsOn violationsOn fsOf fd vsOf vd rest

/-! ## Sample data -/

/-- Options with both policy paths configured. -/
def sampleOpts : Options :=
  { watchBundle := "dtapac", findingPolicyPath := "dtapac/finding",
    violationPolicyPath := "dtapac/violation" }

def projectP1 : Project := { uuid := 1, name := "P1" }

def projectP2 : Project := { uuid := 2, name := "P2" }

def projectP3 : Project := { uuid := 3, name := "P3" }

def findingA : DTFinding :=
  { component := { uuid := 11, name := "acme-lib" },
    vulnerability := { uuid := 21, vulnId := "CVE-A" } }

def findingB : DTFinding :=
  { component := { uuid := 12, name := "acme-app" },
    vulnerability := { uuid := 22, vulnId := "CVE-B" } }

def violationV : PolicyViolation :=
  { uuid := 31, component := { uuid := 11, name := "acme-lib" } }

/-- A disposition that is not the zero value. -/
def suppressIt : FindingAnalysis :=
  { state := "NOT_AFFECTED", justification := "", response := "", comment := "approved",
    suppress := true }

/-- A violation disposition that is not the zero value. -/
def approveIt : ViolationAnalysis :=
  { state := "APPROVED", comment := "approved", suppress := true }

/-- Collaborators for three projects.  Every fetch succeeds, except the findings
fetch of P2 when `p2Fails` is set.  P1 and P3 have the findings A and B, every
project has the violation V.  Finding A is suppressed, finding B gets the zero
disposition, every violation is approved.  The second write call fails. -/
def sampleEnv (p2Fails : Bool) : Env :=
  { pathJoin := fun a b => a ++ b,
    getProjects := fun _ => Except.ok [projectP1, projectP2, projectP3],
    getFindings := fun _ u _ =>
      if u = 2 ∧ p2Fails = true then Except.error "connection refused"
      else Except.ok [findingA, findingB],
    getViolations := fun _ _ _ => Except.ok [violationV],
    decideFinding := fun _ _ f =>
      if f.vulnerability.uuid = 21 then Except.ok suppressIt else Except.ok FindingAnalysis.zero,
    decideViolation := fun _ _ _ => Except.ok approveIt,
    submit := fun k _ => if k = 1 then some "write failed" else none }

/-- The request sent for finding A of project `p`. -/
def requestA (p : Project) : AuditResult :=
  AuditResult.analysisRequest
    { component := 11, project := p.uuid, vulnerability := 21, state := "NOT_AFFECTED",
      justification := "", response := "", comment := "approved", suppressed := true }

/-- The request sent for any violation. -/
def requestV : AuditResult :=
  AuditResult.violationAnalysisRequest
    { component := 0, policyViolation := 0, state := "APPROVED", comment := "approved",
      suppressed := true }

/-- The invariant of the states of `merge(cs...)`: every input value is in exactly
one place (delivered or in `out` with the tag of its goroutine, held by its
goroutine, or still pending on its channel), in the order of its channel; the
counter of the wait group counts the goroutines that have not finished; `out` is
closed only when the counter is zero and never holds more than its capacity. -/
structure MergeInv {α : Type} (cs : List (List α)) (s : MergeState α) : Prop where
  len : s.srcs.length = cs.length
  conserve : ∀ (i : Nat) (src : Source α), s.srcs[i]? = some src →
    cs[i]? = some (fromSource i (s.delivered ++ s.out) ++ src.worker.held ++ src.pending)
  tags : ∀ x ∈ s.delivered ++ s.out, x.1 < cs.length
  drained : ∀ (i : Nat) (src : Source α), s.srcs[i]? = some src → src.worker = Worker.finished → src.pending = []
  counter : s.wg = (s.srcs.map Source.active).sum
  closedWg : s.closed = true → s.wg = 0
  room : s.out.length ≤ outCap
  done : s.readerDone = true → s.closed = true ∧ s.out = []
  noPanic : s.panicked = false

/-- A schedule for two inputs of three and two values that runs the goroutines
and the reader to the end. -/
def sampleSchedule : List Move :=
  [Move.recv 0, Move.recv 1, Move.send 1, Move.read, Move.send 0, Move.recv 0, Move.read,
    Move.send 0, Move.read, Move.recv 1, Move.recv 0, Move.send 0, Move.send 1, Move.read,
    Move.send 1, Move.recv 1, Move.recv 1, Move.recv 0, Move.recv 0, Move.read, Move.close,
    Move.read]

/-- The events of the live receiver in the sample run of the pipeline. -/
def liveEvents : List AuditResult :=
  [requestA projectP1, AuditResult.other "ping"]

/-- The events of the portfolio scanner in the sample run of the pipeline. -/
def scannedEvents : List AuditResult :=
  [requestV]

/-- A schedule of the pipeline in which the scanner, the debouncer and both
producers run while a write call is in progress. -/
def samplePipelineSchedule : List SysMove :=
  [SysMove.scan, SysMove.scan, SysMove.debounce, SysMove.merge (Move.recv 0),
    SysMove.merge (Move.send 0), SysMove.merge Move.read, SysMove.scan, SysMove.scan,
    SysMove.merge (Move.recv 1), SysMove.merge (Move.send 1), SysMove.merge Move.read,
    SysMove.scan, SysMove.merge (Move.recv 0), SysMove.ret, SysMove.merge Move.read]

/-! ## Traces -/

theorem events_append (xs ys : List Effect) : events (xs ++ ys) = events xs ++ events ys := by
  induction xs with
  | nil => rfl
  | cons x xs ih => cases x <;> simp [events, ih]

theorem sendsAt_append (o : Origin) (xs ys : List Effect) :
    sendsAt o (xs ++ ys) = sendsAt o xs ++ sendsAt o ys := by
  induction xs with
  | nil => rfl
  | cons x xs ih =>
    cases x with
    | call c => simp [sendsAt, ih]
    | log l m p => simp [sendsAt, ih]
    | send o' e =>
      by_cases h : o' = o <;> simp [sendsAt, ih, h]

theorem calls_append (xs ys : List Effect) : calls (xs ++ ys) = calls xs ++ calls ys := by
  induction xs with
  | nil => rfl
  | cons x xs ih => cases x <;> simp [calls, ih]

/-- A trace with no send from `o` contributes nothing to `sendsAt o`. -/
theorem sendsAt_eq_nil (o : Origin) :
    ∀ (xs : List Effect), (∀ e, Effect.send o e ∉ xs) → sendsAt o xs = [] := by
  intro xs
  induction xs with
  | nil => intro _; rfl
  | cons x xs ih =>
    intro h
    have hrest : ∀ e, Effect.send o e ∉ xs := fun e he => h e (List.mem_cons_of_mem _ he)
    cases x with
    | call c => simpa [sendsAt] using ih hrest
    | log l m p => simpa [sendsAt] using ih hrest
    | send o' e =>
      have hne : o' ≠ o := by
        intro heq
        exact h e (by simp [heq])
      simpa [sendsAt, hne] using ih hrest

/-! ## The item loops -/

/-- The only send of one iteration of the findings loop is made at its own
position. -/
theorem origin_of_send_findingsBody (fa : Finding → Call × Except Err FindingAnalysis)
    (i : Nat) (p : Project) (j : Nat) (f : DTFinding) (o : Origin) (e : AuditResult)
    (h : Effect.send o e ∈ findingsBody fa i p j f) :
    o = { project := i, kind := Kind.finding, index := j } := by
  unfold findingsBody at h
  simp only [List.mem_cons] at h
  rcases h with h | h
  · cases h
  · split at h
    · simp at h
    · split at h
      · simp at h
        exact h.1
      · simp at h

theorem origin_of_send_violationsBody (va : Violation → Call × Except Err ViolationAnalysis)
    (i j : Nat) (v : PolicyViolation) (o : Origin) (e : AuditResult)
    (h : Effect.send o e ∈ violationsBody va i j v) :
    o = { project := i, kind := Kind.violation, index := j } := by
  unfold violationsBody at h
  simp only [List.mem_cons] at h
  rcases h with h | h
  · cases h
  · split at h
    · simp at h
    · split at h
      · simp at h
        exact h.1
      · simp at h

/-- The sends of the findings loop of project `i` carry the project index `i`, the
kind `finding` and an index not below the start index. -/
theorem origin_of_send_findingsLoop (fa : Finding → Call × Except Err FindingAnalysis)
    (i : Nat) (p : Project) (o : Origin) (e : AuditResult) :
    ∀ (fs : List DTFinding) (j : Nat), Effect.send o e ∈ findingsLoop fa i p j fs →
      o.project = i ∧ o.kind = Kind.finding ∧ j ≤ o.index := by
  intro fs
  induction fs with
  | nil => intro j h; simp [findingsLoop] at h
  | cons f rest ih =>
    intro j h
    simp only [findingsLoop, List.mem_append] at h
    rcases h with h | h
    · rw [origin_of_send_findingsBody fa i p j f o e h]
      simp
    · obtain ⟨h1, h2, h3⟩ := ih (j + 1) h
      exact ⟨h1, h2, by omega⟩

theorem origin_of_send_violationsLoop (va : Violation → Call × Except Err ViolationAnalysis)
    (i : Nat) (o : Origin) (e : AuditResult) :
    ∀ (vs : List PolicyViolation) (j : Nat), Effect.send o e ∈ violationsLoop va i j vs →
      o.project = i ∧ o.kind = Kind.violation ∧ j ≤ o.index := by
  intro vs
  induction vs with
  | nil => intro j h; simp [violationsLoop] at h
  | cons v rest ih =>
    intro j h
    simp only [violationsLoop, List.mem_append] at h
    rcases h with h | h
    · rw [origin_of_send_violationsBody va i j v o e h]
      simp
    · obtain ⟨h1, h2, h3⟩ := ih (j + 1) h
      exact ⟨h1, h2, by omega⟩

/-- What one iteration of the findings loop sends, by the result of its auditor
call. -/
theorem events_findingsBody (fa : Finding → Call × Except Err FindingAnalysis)
    (i : Nat) (p : Project) (j : Nat) (f : DTFinding) :
    events (findingsBody fa i p j f) =
      (match (fa (findingOf p f)).2 with
        | Except.error _ => []
        | Except.ok d =>
          if d = FindingAnalysis.zero then []
          else [AuditResult.analysisRequest (analysisRequestOf (findingOf p f) d)]) := by
  unfold findingsBody
  cases (fa (findingOf p f)).2 with
  | error err => simp [events]
  | ok d => by_cases hz : d = FindingAnalysis.zero <;> simp [events, hz]

theorem events_violationsBody (va : Violation → Call × Except Err ViolationAnalysis)
    (i j : Nat) (v : PolicyViolation) :
    events (violationsBody va i j v) =
      (match (va Violation.zero).2 with
        | Except.error _ => []
        | Except.ok d =>
          if d = ViolationAnalysis.zero then []
          else [AuditResult.violationAnalysisRequest (violationRequestOf d)]) := by
  unfold violationsBody
  cases (va Violation.zero).2 with
  | error err => simp [events]
  | ok d => by_cases hz : d = ViolationAnalysis.zero <;> simp [events, hz]

theorem sendsAt_findingsBody (fa : Finding → Call × Except Err FindingAnalysis)
    (i : Nat) (p : Project) (j : Nat) (f : DTFinding) :
    sendsAt { project := i, kind := Kind.finding, index := j } (findingsBody fa i p j f) =
      events (findingsBody fa i p j f) := by
  unfold findingsBody
  cases (fa (findingOf p f)).2 with
  | error err => simp [events, sendsAt]
  | ok d => by_cases hz : d = FindingAnalysis.zero <;> simp [events, sendsAt, hz]

theorem sendsAt_violationsBody (va : Violation → Call × Except Err ViolationAnalysis)
    (i j : Nat) (v : PolicyViolation) :
    sendsAt { project := i, kind := Kind.violation, index := j } (violationsBody va i j v) =
      events (violationsBody va i j v) := by
  unfold violationsBody
  cases (va Violation.zero).2 with
  | error err => simp [events, sendsAt]
  | ok d => by_cases hz : d = ViolationAnalysis.zero <;> simp [events, sendsAt, hz]

/-- The sends from position `j + n` of the findings loop started at `j` are the
sends of the iteration of its `n`-th element. -/
theorem sendsAt_findingsLoop (fa : Finding → Call × Except Err FindingAnalysis)
    (i : Nat) (p : Project) :
    ∀ (fs : List DTFinding) (j n : Nat) (f : DTFinding), fs[n]? = some f →
      sendsAt { project := i, kind := Kind.finding, index := j + n } (findingsLoop fa i p j fs) =
        events (findingsBody fa i p (j + n) f) := by
  intro fs
  induction fs with
  | nil => intro j n f h; simp at h
  | cons g rest ih =>
    intro j n f h
    cases n with
    | zero =>
      simp at h
      subst h
      have hrest : sendsAt { project := i, kind := Kind.finding, index := j }
          (findingsLoop fa i p (j + 1) rest) = [] := by
        apply sendsAt_eq_nil
        intro e he
        have := (origin_of_send_findingsLoop fa i p _ e rest (j + 1) he).2.2
        simp at this
      simp [findingsLoop, sendsAt_append, hrest, sendsAt_findingsBody]
    | succ n =>
      simp at h
      have ih1 := ih (j + 1) n f h
      have hidx : j + (n + 1) = j + 1 + n := by omega
      have hhead : sendsAt { project := i, kind := Kind.finding, index := j + 1 + n }
          (findingsBody fa i p j g) = [] := by
        apply sendsAt_eq_nil
        intro e he
        have := origin_of_send_findingsBody fa i p j g _ e he
        simp at this
        omega
      rw [hidx]
      simp [findingsLoop, sendsAt_append, hhead, ih1]

theorem sendsAt_violationsLoop (va : Violation → Call × Except Err ViolationAnalysis)
    (i : Nat) :
    ∀ (vs : List PolicyViolation) (j n : Nat) (v : PolicyViolation), vs[n]? = some v →
      sendsAt { project := i, kind := Kind.violation, index := j + n }
          (violationsLoop va i j vs) =
        events (violationsBody va i (j + n) v) := by
  intro vs
  induction vs with
  | nil => intro j n v h; simp at h
  | cons g rest ih =>
    intro j n v h
    cases n with
    | zero =>
      simp at h
      subst h
      have hrest : sendsAt { project := i, kind := Kind.violation, index := j }
          (violationsLoop va i (j + 1) rest) = [] := by
        apply sendsAt_eq_nil
        intro e he
        have := (origin_of_send_violationsLoop va i _ e rest (j + 1) he).2.2
        simp at this
      simp [violationsLoop, sendsAt_append, hrest, sendsAt_violationsBody]
    | succ n =>
      simp at h
      have ih1 := ih (j + 1) n v h
      have hidx : j + (n + 1) = j + 1 + n := by omega
      have hhead : sendsAt { project := i, kind := Kind.violation, index := j + 1 + n }
          (violationsBody va i j g) = [] := by
        apply sendsAt_eq_nil
        intro e he
        have := origin_of_send_violationsBody va i j g _ e he
        simp at this
        omega
      rw [hidx]
      simp [violationsLoop, sendsAt_append, hhead, ih1]

/-! ## The project loop -/

theorem findingAuditor_eq (opts : Options) (env : Env)
    (fa : Finding → Call × Except Err FindingAnalysis) (h : findingAuditor opts env = some fa) :
    opts.findingPolicyPath ≠ "" ∧
    fa = fun finding =>
      (Call.decision Ctx.background (env.pathJoin opts.findingPolicyPath "/analysis")
          (Subject.finding finding),
        env.decideFinding Ctx.background (env.pathJoin opts.findingPolicyPath "/analysis")
          finding) := by
  unfold findingAuditor at h
  split at h
  · rename_i hp
    simp at h
    exact ⟨hp, h.symm⟩
  · simp at h

theorem violationAuditor_eq (opts : Options) (env : Env)
    (va : Violation → Call × Except Err ViolationAnalysis)
    (h : violationAuditor opts env = some va) :
    opts.violationPolicyPath ≠ "" ∧
    va = fun violation =>
      (Call.decision Ctx.background (env.pathJoin opts.violationPolicyPath "/analysis")
          (Subject.violation violation),
        env.decideViolation Ctx.background (env.pathJoin opts.violationPolicyPath "/analysis")
          violation) := by
  unfold violationAuditor at h
  split at h
  · rename_i hp
    simp at h
    exact ⟨hp, h.symm⟩
  · simp at h

/-- The calls of the findings loop are the calls of the auditor. -/
theorem call_mem_findingsLoop (fa : Finding → Call × Except Err FindingAnalysis)
    (i : Nat) (p : Project) (c : Call) :
    ∀ (fs : List DTFinding) (j : Nat), Effect.call c ∈ findingsLoop fa i p j fs →
      ∃ x, c = (fa x).1 := by
  intro fs
  induction fs with
  | nil => intro j h; simp [findingsLoop] at h
  | cons f rest ih =>
    intro j h
    simp only [findingsLoop, List.mem_append] at h
    rcases h with h | h
    · unfold findingsBody at h
      simp only [List.mem_cons] at h
      rcases h with h | h
      · exact ⟨_, by simpa using h⟩
      · split at h
        · simp at h
        · split at h <;> simp at h
    · exact ih (j + 1) h

theorem call_mem_violationsLoop (va : Violation → Call × Except Err ViolationAnalysis)
    (i : Nat) (c : Call) :
    ∀ (vs : List PolicyViolation) (j : Nat), Effect.call c ∈ violationsLoop va i j vs →
      ∃ x, c = (va x).1 := by
  intro vs
  induction vs with
  | nil => intro j h; simp [violationsLoop] at h
  | cons v rest ih =>
    intro j h
    simp only [violationsLoop, List.mem_append] at h
    rcases h with h | h
    · unfold violationsBody at h
      simp only [List.mem_cons] at h
      rcases h with h | h
      · exact ⟨_, by simpa using h⟩
      · split at h
        · simp at h
        · split at h <;> simp at h
    · exact ih (j + 1) h

/-- The calls of the second half of a project's iteration: the violations fetch
of that project with the task-group context, and decision calls with the
background context. -/
theorem call_mem_violationsPart (opts : Options) (env : Env) (ctx : Ctx) (i : Nat)
    (p : Project) (c : Call) (h : Effect.call c ∈ violationsPart opts env ctx i p) :
    c = Call.getAllViolations (egCtx ctx) p.uuid false ∨
      (c.isDecision = true ∧ c.ctx = Ctx.background) := by
  unfold violationsPart at h
  split at h
  · rename_i va hva
    simp only [List.mem_cons] at h
    rcases h with h | h
    · left; simpa using h
    · split at h
      · simp at h
      · obtain ⟨x, hx⟩ := call_mem_violationsLoop va i c _ 0 h
        rw [(violationAuditor_eq opts env va hva).2] at hx
        right
        subst hx
        exact ⟨rfl, rfl⟩
  · simp at h

/-- The calls of a project's iteration. -/
theorem call_mem_projectBody (opts : Options) (env : Env) (ctx : Ctx) (i : Nat)
    (p : Project) (c : Call) (h : Effect.call c ∈ projectBody opts env ctx i p) :
    c = Call.getAllFindings (egCtx ctx) p.uuid true ∨
    c = Call.getAllViolations (egCtx ctx) p.uuid false ∨
      (c.isDecision = true ∧ c.ctx = Ctx.background) := by
  unfold projectBody at h
  split at h
  · rename_i fa hfa
    simp only [List.mem_cons] at h
    rcases h with h | h
    · left; simpa using h
    · split at h
      · simp at h
      · rw [List.mem_append] at h
        rcases h with h | h
        · obtain ⟨x, hx⟩ := call_mem_findingsLoop fa i p c _ 0 h
          rw [(findingAuditor_eq opts env fa hfa).2] at hx
          right; right
          subst hx
          exact ⟨rfl, rfl⟩
        · right; exact call_mem_violationsPart opts env ctx i p c h
  · simp only [List.mem_cons] at h
    rcases h with h | h
    · cases h
    · right; exact call_mem_violationsPart opts env ctx i p c h

/-- A project's iteration that fetches violations did not fail to fetch its
findings. -/
theorem findings_ok_of_violations_fetched (opts : Options) (env : Env) (ctx : Ctx) (i : Nat)
    (p : Project) (u : UUID)
    (h : Effect.call (Call.getAllViolations (egCtx ctx) u false) ∈
      projectBody opts env ctx i p) :
    u = p.uuid ∧ (violationAuditor opts env).isSome = true ∧
      (findingAuditor opts env = none ∨
        ∃ fs, env.getFindings (egCtx ctx) p.uuid true = Except.ok fs) := by
  have hpart : ∀ (h2 : Effect.call (Call.getAllViolations (egCtx ctx) u false) ∈
      violationsPart opts env ctx i p), u = p.uuid ∧ (violationAuditor opts env).isSome = true := by
    intro h2
    have h3 := call_mem_violationsPart opts env ctx i p _ h2
    have hsome : (violationAuditor opts env).isSome = true := by
      unfold violationsPart at h2
      split at h2
      · rename_i va hva
        simp [hva]
      · simp at h2
    rcases h3 with h3 | h3
    · simp at h3
      exact ⟨h3, hsome⟩
    · simp [Call.isDecision] at h3
  unfold projectBody at h
  split at h
  · rename_i fa hfa
    simp only [List.mem_cons] at h
    rcases h with h | h
    · simp at h
    · split at h
      · simp at h
      · rename_i fs hfs
        rw [List.mem_append] at h
        rcases h with h | h
        · obtain ⟨x, hx⟩ := call_mem_findingsLoop fa i p _ _ 0 h
          rw [(findingAuditor_eq opts env fa hfa).2] at hx
          simp at hx
        · obtain ⟨h1, h2⟩ := hpart h
          exact ⟨h1, h2, Or.inr ⟨fs, hfs⟩⟩
  · rename_i hnone
    simp only [List.mem_cons] at h
    rcases h with h | h
    · cases h
    · obtain ⟨h1, h2⟩ := hpart h
      exact ⟨h1, h2, Or.inl hnone⟩

theorem mem_projectsLoop (opts : Options) (env : Env) (ctx : Ctx) (x : Effect) :
    ∀ (ps : List Project) (k : Nat), x ∈ projectsLoop opts env ctx k ps →
      ∃ p ∈ ps, ∃ i, k ≤ i ∧ x ∈ projectBody opts env ctx i p := by
  intro ps
  induction ps with
  | nil => intro k h; simp [projectsLoop] at h
  | cons q rest ih =>
    intro k h
    simp only [projectsLoop, List.mem_append] at h
    rcases h with h | h
    · exact ⟨q, by simp, k, le_refl k, h⟩
    · obtain ⟨p, hp, i, hi, hx⟩ := ih (k + 1) h
      exact ⟨p, by simp [hp], i, by omega, hx⟩

theorem origin_of_send_violationsPart (opts : Options) (env : Env) (ctx : Ctx) (i : Nat)
    (p : Project) (o : Origin) (e : AuditResult)
    (h : Effect.send o e ∈ violationsPart opts env ctx i p) :
    o.project = i ∧ o.kind = Kind.violation := by
  unfold violationsPart at h
  split at h
  · rename_i va hva
    simp only [List.mem_cons] at h
    rcases h with h | h
    · cases h
    · split at h
      · simp at h
      · obtain ⟨h1, h2, -⟩ := origin_of_send_violationsLoop va i o e _ 0 h
        exact ⟨h1, h2⟩
  · simp at h

theorem origin_of_send_projectBody (opts : Options) (env : Env) (ctx : Ctx) (i : Nat)
    (p : Project) (o : Origin) (e : AuditResult)
    (h : Effect.send o e ∈ projectBody opts env ctx i p) : o.project = i := by
  unfold projectBody at h
  split at h
  · rename_i fa hfa
    simp only [List.mem_cons] at h
    rcases h with h | h
    · cases h
    · split at h
      · simp at h
      · rw [List.mem_append] at h
        rcases h with h | h
        · exact (origin_of_send_findingsLoop fa i p o e _ 0 h).1
        · exact (origin_of_send_violationsPart opts env ctx i p o e h).1
  · simp only [List.mem_cons] at h
    rcases h with h | h
    · cases h
    · exact (origin_of_send_violationsPart opts env ctx i p o e h).1

/-- The sends from a position of project `k + n` in the project loop started at
`k` are the sends of the iteration of its `n`-th project. -/
theorem sendsAt_projectsLoop (opts : Options) (env : Env) (ctx : Ctx) (o : Origin) :
    ∀ (ps : List Project) (k n : Nat) (p : Project), ps[n]? = some p → o.project = k + n →
      sendsAt o (projectsLoop opts env ctx k ps) =
        sendsAt o (projectBody opts env ctx (k + n) p) := by
  intro ps
  induction ps with
  | nil => intro k n p h; simp at h
  | cons q rest ih =>
    intro k n p h ho
    cases n with
    | zero =>
      simp at h
      subst h
      have hrest : sendsAt o (projectsLoop opts env ctx (k + 1) rest) = [] := by
        apply sendsAt_eq_nil
        intro e he
        obtain ⟨p', -, i', hi', hx⟩ := mem_projectsLoop opts env ctx _ rest (k + 1) he
        have := origin_of_send_projectBody opts env ctx i' p' o e hx
        omega
      simp [projectsLoop, sendsAt_append, hrest]
    | succ n =>
      simp at h
      have hhead : sendsAt o (projectBody opts env ctx k q) = [] := by
        apply sendsAt_eq_nil
        intro e he
        have := origin_of_send_projectBody opts env ctx k q o e he
        omega
      have hidx : k + (n + 1) = k + 1 + n := by omega
      rw [hidx]
      rw [hidx] at ho
      simp [projectsLoop, sendsAt_append, hhead, ih (k + 1) n p h ho]

theorem sendsAt_scanPass (opts : Options) (env : Env) (ctx : Ctx) (o : Origin)
    (ps : List Project) (hP : env.getProjects (egCtx ctx) = Except.ok ps) :
    sendsAt o (scanPass opts env ctx) = sendsAt o (projectsLoop opts env ctx 0 ps) := by
  simp [scanPass, hP, sendsAt, sendsAt_append]

theorem events_scanPass (opts : Options) (env : Env) (ctx : Ctx)
    (ps : List Project) (hP : env.getProjects (egCtx ctx) = Except.ok ps) :
    events (scanPass opts env ctx) = events (projectsLoop opts env ctx 0 ps) := by
  simp [scanPass, hP, events, events_append]

/-! ## C1: an event is sent exactly for the dispositions that are not zero -/

/-- C1.  In a scan pass whose project fetch returns `ps`: (1) for the finding `f`
at index `j` of the successfully fetched findings of the project at index `i`,
whose auditor call returns the disposition `d` without error, the pass sends no
event from that position when `d` is the zero `FindingAnalysis` and exactly one
(the request built from `f` and `d`) when it is not; (2) the same for the
violation at iteration `j` of the violations the pass fetched successfully for the
project at index `i`; (3) a disposition is the zero value exactly when each of its
fields is. -/
theorem scanPass_sends_iff_nonzero (opts : Options) (env : Env) (ctx : Ctx)
    (ps : List Project) (i : Nat) (p : Project)
    (hP : env.getProjects (egCtx ctx) = Except.ok ps) (hi : ps[i]? = some p) :
    (∀ (fa : Finding → Call × Except Err FindingAnalysis) (fs : List DTFinding) (j : Nat)
        (f : DTFinding) (d : FindingAnalysis),
      findingAuditor opts env = some fa →
      env.getFindings (egCtx ctx) p.uuid true = Except.ok fs →
      fs[j]? = some f →
      (fa (findingOf p f)).2 = Except.ok d →
      sendsAt { project := i, kind := Kind.finding, index := j } (scanPass opts env ctx) =
        if d = FindingAnalysis.zero then []
        else [AuditResult.analysisRequest (analysisRequestOf (findingOf p f) d)]) ∧
    (∀ (va : Violation → Call × Except Err ViolationAnalysis) (vs : List PolicyViolation)
        (j : Nat) (v : PolicyViolation) (d : ViolationAnalysis),
      violationAuditor opts env = some va →
      Effect.call (Call.getAllViolations (egCtx ctx) p.uuid false) ∈ scanPass opts env ctx →
      env.getViolations (egCtx ctx) p.uuid false = Except.ok vs →
      vs[j]? = some v →
      (va Violation.zero).2 = Except.ok d →
      sendsAt { project := i, kind := Kind.violation, index := j } (scanPass opts env ctx) =
        if d = ViolationAnalysis.zero then []
        else [AuditResult.violationAnalysisRequest (violationRequestOf d)]) ∧
    (∀ d : FindingAnalysis, d = FindingAnalysis.zero ↔
      (d.state = "" ∧ d.justification = "" ∧ d.response = "" ∧ d.comment = "" ∧
        d.suppress = false)) ∧
    (∀ d : ViolationAnalysis, d = ViolationAnalysis.zero ↔
      (d.state = "" ∧ d.comment = "" ∧ d.suppress = false)) := by
  refine ⟨?_, ?_, ?_, ?_⟩
  · intro fa fs j f d hfa hF hj hd
    rw [sendsAt_scanPass opts env ctx _ ps hP,
      sendsAt_projectsLoop opts env ctx _ ps 0 i p hi (by simp)]
    have hv : sendsAt { project := i, kind := Kind.finding, index := j }
        (violationsPart opts env ctx i p) = [] := by
      apply sendsAt_eq_nil
      intro e he
      have := (origin_of_send_violationsPart opts env ctx i p _ e he).2
      simp at this
    have hl := sendsAt_findingsLoop fa i p fs 0 j f hj
    simp only [Nat.zero_add] at hl
    simp only [projectBody, hfa, hF, Nat.zero_add, sendsAt, sendsAt_append, hv, hl,
      events_findingsBody, hd, List.append_nil]
  · intro va vs j v d hva hcall hV hj hd
    rw [sendsAt_scanPass opts env ctx _ ps hP,
      sendsAt_projectsLoop opts env ctx _ ps 0 i p hi (by simp)]
    have hcall2 : Effect.call (Call.getAllViolations (egCtx ctx) p.uuid false) ∈
        projectsLoop opts env ctx 0 ps := by
      simp only [scanPass, hP, List.mem_cons, List.mem_append] at hcall
      rcases hcall with h | h | h | h
      · cases h
      · cases h
      · exact h
      · simp at h
    obtain ⟨q, -, i', -, hq⟩ := mem_projectsLoop opts env ctx _ ps 0 hcall2
    obtain ⟨huuid, -, hfind⟩ := findings_ok_of_violations_fetched opts env ctx i' q _ hq
    have hl := sendsAt_violationsLoop va i vs 0 j v hj
    simp only [Nat.zero_add] at hl
    have hpart : sendsAt { project := i, kind := Kind.violation, index := j }
        (violationsPart opts env ctx i p) =
          if d = ViolationAnalysis.zero then []
          else [AuditResult.violationAnalysisRequest (violationRequestOf d)] := by
      simp only [violationsPart, hva, hV, sendsAt, hl, events_violationsBody, hd]
    rcases hfind with hnone | ⟨fs, hfs⟩
    · simp only [projectBody, hnone, Nat.zero_add, sendsAt, hpart]
    · rw [← huuid] at hfs
      cases hfa : findingAuditor opts env with
      | none => simp only [projectBody, hfa, Nat.zero_add, sendsAt, hpart]
      | some fa =>
        have hf : sendsAt { project := i, kind := Kind.violation, index := j }
            (findingsLoop fa i p 0 fs) = [] := by
          apply sendsAt_eq_nil
          intro e he
          have := (origin_of_send_findingsLoop fa i p _ e fs 0 he).2.1
          simp at this
        simp only [projectBody, hfa, hfs, Nat.zero_add, sendsAt, sendsAt_append, hf, hpart,
          List.nil_append]
  · intro d
    constructor
    · intro h; subst h; simp [FindingAnalysis.zero]
    · intro h
      cases d
      simp [FindingAnalysis.zero] at *
      exact h
  · intro d
    constructor
    · intro h; subst h; simp [ViolationAnalysis.zero]
    · intro h
      cases d
      simp [ViolationAnalysis.zero] at *
      exact h

/-- Witness of C1 on the sample pass: finding A of P1 (suppressed) is sent once,
finding B of P1 (zero disposition) is not sent, the violation of P1 is sent once. -/
theorem scanPass_sends_iff_nonzero_witness :
    sendsAt { project := 0, kind := Kind.finding, index := 0 }
        (scanPass sampleOpts (sampleEnv true) Ctx.background) = [requestA projectP1] ∧
    sendsAt { project := 0, kind := Kind.finding, index := 1 }
        (scanPass sampleOpts (sampleEnv true) Ctx.background) = [] ∧
    sendsAt { project := 0, kind := Kind.violation, index := 0 }
        (scanPass sampleOpts (sampleEnv true) Ctx.background) = [requestV] := by
  have h := scanPass_sends_iff_nonzero sampleOpts (sampleEnv true) Ctx.background
    [projectP1, projectP2, projectP3] 0 projectP1 rfl rfl
  refine ⟨?_, ?_, ?_⟩
  · exact (h.1 _ [findingA, findingB] 0 findingA suppressIt rfl rfl rfl rfl).trans (by decide)
  · exact (h.1 _ [findingA, findingB] 1 findingB FindingAnalysis.zero rfl rfl rfl rfl).trans
      (by decide)
  · exact (h.2.1 _ [violationV] 0 violationV approveIt rfl (by decide) rfl rfl rfl).trans
      (by decide)

/-! ## The events of the loops -/

/-- The events of the findings loop do not depend on the loop indices. -/
theorem events_findingsLoop_index (fa : Finding → Call × Except Err FindingAnalysis)
    (i i' : Nat) (p : Project) :
    ∀ (fs : List DTFinding) (j j' : Nat),
      events (findingsLoop fa i p j fs) = events (findingsLoop fa i' p j' fs) := by
  intro fs
  induction fs with
  | nil => intro j j'; rfl
  | cons f rest ih =>
    intro j j'
    simp only [findingsLoop, events_append, events_findingsBody, ih (j + 1) (j' + 1)]

theorem events_violationsLoop_index (va : Violation → Call × Except Err ViolationAnalysis)
    (i i' : Nat) :
    ∀ (vs : List PolicyViolation) (j j' : Nat),
      events (violationsLoop va i j vs) = events (violationsLoop va i' j' vs) := by
  intro vs
  induction vs with
  | nil => intro j j'; rfl
  | cons v rest ih =>
    intro j j'
    simp only [violationsLoop, events_append, events_violationsBody, ih (j + 1) (j' + 1)]

theorem events_violationsPart_index (opts : Options) (env : Env) (ctx : Ctx) (i i' : Nat)
    (p : Project) :
    events (violationsPart opts env ctx i p) = events (violationsPart opts env ctx i' p) := by
  unfold violationsPart
  cases violationAuditor opts env with
  | none => rfl
  | some va =>
    cases env.getViolations (egCtx ctx) p.uuid false with
    | error err => rfl
    | ok vs => simp only [events, events_violationsLoop_index va i i' vs 0 0]

theorem events_projectBody_index (opts : Options) (env : Env) (ctx : Ctx) (i i' : Nat)
    (p : Project) :
    events (projectBody opts env ctx i p) = events (projectBody opts env ctx i' p) := by
  unfold projectBody
  cases findingAuditor opts env with
  | none => simp only [events, events_violationsPart_index opts env ctx i i' p]
  | some fa =>
    cases env.getFindings (egCtx ctx) p.uuid true with
    | error err => rfl
    | ok fs =>
      simp only [events, events_append, events_findingsLoop_index fa i i' p fs 0 0,
        events_violationsPart_index opts env ctx i i' p]

theorem events_projectsLoop_index (opts : Options) (env : Env) (ctx : Ctx) :
    ∀ (ps : List Project) (k k' : Nat),
      events (projectsLoop opts env ctx k ps) = events (projectsLoop opts env ctx k' ps) := by
  intro ps
  induction ps with
  | nil => intro k k'; rfl
  | cons p rest ih =>
    intro k k'
    simp only [projectsLoop, events_append, events_projectBody_index opts env ctx k k' p,
      ih (k + 1) (k' + 1)]

/-- The project loop over a concatenation. -/
theorem projectsLoop_append (opts : Options) (env : Env) (ctx : Ctx) :
    ∀ (xs ys : List Project) (k : Nat),
      projectsLoop opts env ctx k (xs ++ ys) =
        projectsLoop opts env ctx k xs ++ projectsLoop opts env ctx (k + xs.length) ys := by
  intro xs
  induction xs with
  | nil => intro ys k; simp [projectsLoop]
  | cons x rest ih =>
    intro ys k
    have hk : k + 1 + rest.length = k + (rest.length + 1) := by omega
    simp [projectsLoop, ih ys (k + 1), hk]

/-- The iteration of a project whose findings fetch fails, with finding auditing
on: the fetch call and the error log, nothing else. -/
theorem projectBody_of_findings_error (opts : Options) (env : Env) (ctx : Ctx) (i : Nat)
    (p : Project) (err : Err) (hfa : opts.findingPolicyPath ≠ "")
    (hfail : env.getFindings (egCtx ctx) p.uuid true = Except.error err) :
    projectBody opts env ctx i p =
      [Effect.call (Call.getAllFindings (egCtx ctx) p.uuid true),
        Effect.log Level.error "failed to fetch findings" (some p.uuid)] := by
  simp [projectBody, findingAuditor, hfa, hfail]

theorem mem_calls (c : Call) : ∀ (xs : List Effect), c ∈ calls xs ↔ Effect.call c ∈ xs := by
  intro xs
  induction xs with
  | nil => simp [calls]
  | cons x rest ih => cases x <;> simp [calls, ih]

theorem events_findingsLoop_ok (fa : Finding → Call × Except Err FindingAnalysis)
    (i : Nat) (p : Project) (d : DTFinding → FindingAnalysis) :
    ∀ (fs : List DTFinding) (j : Nat),
      (∀ f ∈ fs, (fa (findingOf p f)).2 = Except.ok (d f)) →
      events (findingsLoop fa i p j fs) = findingEvents p d fs := by
  intro fs
  induction fs with
  | nil => intro j _; rfl
  | cons f rest ih =>
    intro j h
    have hf := h f (by simp)
    have hrest := ih (j + 1) (fun g hg => h g (by simp [hg]))
    simp only [findingsLoop, events_append, events_findingsBody, hf, hrest, findingEvents]
    by_cases hz : d f = FindingAnalysis.zero <;> simp [hz]

theorem events_violationsLoop_ok (va : Violation → Call × Except Err ViolationAnalysis)
    (i : Nat) (d : PolicyViolation → ViolationAnalysis) :
    ∀ (vs : List PolicyViolation) (j : Nat),
      (∀ v ∈ vs, (va Violation.zero).2 = Except.ok (d v)) →
      events (violationsLoop va i j vs) = violationEvents d vs := by
  intro vs
  induction vs with
  | nil => intro j _; rfl
  | cons v rest ih =>
    intro j h
    have hv := h v (by simp)
    have hrest := ih (j + 1) (fun g hg => h g (by simp [hg]))
    simp only [violationsLoop, events_append, events_violationsBody, hv, hrest, violationEvents]
    by_cases hz : d v = ViolationAnalysis.zero <;> simp [hz]

/-! ## C6: the identifiers of a violation request -/

/-- C6 (evaluation of the code).  The sample pass fetches for P1 the violation V,
whose policy-violation id is 31 and whose component id is 11, and decides a
disposition for it that is not zero; the one event sent for it carries the
component id 0 and the policy-violation id 0. -/
theorem violation_request_drops_ids :
    (sampleEnv true).getViolations (egCtx Ctx.background) projectP1.uuid false =
        Except.ok [violationV] ∧
    violationV.uuid = 31 ∧ violationV.component.uuid = 11 ∧
    sendsAt { project := 0, kind := Kind.violation, index := 0 }
        (scanPass sampleOpts (sampleEnv true) Ctx.background) =
      [AuditResult.violationAnalysisRequest
        { component := 0, policyViolation := 0, state := "APPROVED", comment := "approved",
          suppressed := true }] := by
  decide

/-! ## C7: a failing findings fetch leaves the other projects alone -/

theorem projectBody_withProjects (opts : Options) (env : Env) (ctx : Ctx) (ps : List Project)
    (i : Nat) (p : Project) :
    projectBody opts (env.withProjects ps) ctx i p = projectBody opts env ctx i p := rfl

theorem projectsLoop_withProjects (opts : Options) (env : Env) (ctx : Ctx) (ps : List Project) :
    ∀ (qs : List Project) (k : Nat),
      projectsLoop opts (env.withProjects ps) ctx k qs = projectsLoop opts env ctx k qs := by
  intro qs
  induction qs with
  | nil => intro k; rfl
  | cons q rest ih =>
    intro k
    simp only [projectsLoop, ih (k + 1), projectBody_withProjects]

/-- C7.  With finding auditing on, when the findings fetch of project `P` fails,
the events of a pass over `pre ++ P :: post` are the events of the same pass over
`pre ++ post`. -/
theorem scanPass_skips_failed_project (opts : Options) (env : Env) (ctx : Ctx)
    (pre post : List Project) (P : Project) (err : Err)
    (hfa : opts.findingPolicyPath ≠ "")
    (hfail : env.getFindings (egCtx ctx) P.uuid true = Except.error err) :
    events (scanPass opts (env.withProjects (pre ++ P :: post)) ctx) =
      events (scanPass opts (env.withProjects (pre ++ post)) ctx) := by
  have hbody : ∀ i, events (projectBody opts env ctx i P) = [] := by
    intro i
    rw [projectBody_of_findings_error opts env ctx i P err hfa hfail]
    rfl
  rw [events_scanPass opts _ ctx (pre ++ P :: post) rfl,
    events_scanPass opts _ ctx (pre ++ post) rfl,
    projectsLoop_withProjects, projectsLoop_withProjects,
    projectsLoop_append, projectsLoop_append]
  simp only [projectsLoop, events_append, hbody, List.nil_append]
  rw [events_projectsLoop_index opts env ctx post (0 + pre.length + 1) (0 + pre.length)]

/-- Witness of C7: the projects P1, P2, P3 with the findings fetch of P2 failing
give the events of P1 and P3. -/
theorem scanPass_skips_failed_project_witness :
    events (scanPass sampleOpts
        ((sampleEnv true).withProjects ([projectP1] ++ projectP2 :: [projectP3]))
        Ctx.background) =
      events (scanPass sampleOpts ((sampleEnv true).withProjects ([projectP1] ++ [projectP3]))
        Ctx.background) ∧
    events (scanPass sampleOpts ((sampleEnv true).withProjects ([projectP1] ++ [projectP3]))
        Ctx.background) =
      [requestA projectP1, requestV, requestA projectP3, requestV] :=
  ⟨scanPass_skips_failed_project sampleOpts (sampleEnv true) Ctx.background [projectP1]
      [projectP3] projectP2 "connection refused" (by decide) rfl, by decide⟩

/-! ## C8: the order of the events of a pass -/

/-- C8.  In a pass in which the project fetch returns `ps`, every findings fetch
returns `fsOf p`, every violations fetch returns `vsOf p`, and every auditor call
returns a disposition (`fd p f` for the finding `f`, `vd p v` for the violation
`v`): the events sent are, project after project in the order of `ps`, the events
of the findings with a non-zero disposition in fetch order, then the events of
the violations with a non-zero disposition in fetch order (a category whose
auditing is off has no dispositions and contributes nothing). -/
theorem scanPass_events_order (opts : Options) (env : Env) (ctx : Ctx) (ps : List Project)
    (fsOf : Project → List DTFinding) (fd : Project → DTFinding → FindingAnalysis)
    (vsOf : Project → List PolicyViolation)
    (vd : Project → PolicyViolation → ViolationAnalysis)
    (hP : env.getProjects (egCtx ctx) = Except.ok ps)
    (hF : ∀ p ∈ ps, env.getFindings (egCtx ctx) p.uuid true = Except.ok (fsOf p))
    (hV : ∀ p ∈ ps, env.getViolations (egCtx ctx) p.uuid false = Except.ok (vsOf p))
    (hfd : ∀ fa, findingAuditor opts env = some fa → ∀ p ∈ ps, ∀ f ∈ fsOf p,
      (fa (findingOf p f)).2 = Except.ok (fd p f))
    (hvd : ∀ va, violationAuditor opts env = some va → ∀ p ∈ ps, ∀ v ∈ vsOf p,
      (va Violation.zero).2 = Except.ok (vd p v)) :
    events (scanPass opts env ctx) =
      expectedEvents (findingAuditor opts env).isSome (violationAuditor opts env).isSome
        fsOf fd vsOf vd ps := by
  rw [events_scanPass opts env ctx ps hP]
  have key : ∀ (qs : List Project) (k : Nat), (∀ q ∈ qs, q ∈ ps) →
      events (projectsLoop opts env ctx k qs) =
        expectedEvents (findingAuditor opts env).isSome (violationAuditor opts env).isSome
          fsOf fd vsOf vd qs := by
    intro qs
    induction qs with
    | nil => intro k _; rfl
    | cons q rest ih =>
      intro k hsub
      have hq : q ∈ ps := hsub q (by simp)
      have hrest := ih (k + 1) (fun r hr => hsub r (by simp [hr]))
      have hpart : events (violationsPart opts env ctx k q) =
          if (violationAuditor opts env).isSome then violationEvents (vd q) (vsOf q)
          else [] := by
        unfold violationsPart
        cases hva : violationAuditor opts env with
        | none => rfl
        | some va =>
          simp only [hV q hq, events, Option.isSome_some, if_true]
          exact events_violationsLoop_ok va k (vd q) (vsOf q) 0 (hvd va hva q hq)
      have hbody : events (projectBody opts env ctx k q) =
          (if (findingAuditor opts env).isSome then findingEvents q (fd q) (fsOf q) else []) ++
            (if (violationAuditor opts env).isSome then violationEvents (vd q) (vsOf q)
              else []) := by
        unfold projectBody
        cases hfa : findingAuditor opts env with
        | none => simp only [events, hpart, Option.isSome_none, Bool.false_eq_true, if_false,
            List.nil_append]
        | some fa =>
          simp only [hF q hq, events, events_append, hpart, Option.isSome_some, if_true]
          rw [events_findingsLoop_ok fa k q (fd q) (fsOf q) 0 (hfd fa hfa q hq)]
      simp only [projectsLoop, events_append, hbody, hrest, expectedEvents]
  exact key ps 0 (fun q hq => hq)

/-- Witness of C8: the sample pass with no failing fetch sends, for each of P1, P2
and P3, the request of finding A and then the request of the violation. -/
theorem scanPass_events_order_witness :
    events (scanPass sampleOpts (sampleEnv false) Ctx.background) =
      [requestA projectP1, requestV, requestA projectP2, requestV, requestA projectP3,
        requestV] :=
  (scanPass_events_order sampleOpts (sampleEnv false) Ctx.background
    [projectP1, projectP2, projectP3]
    (fun _ => [findingA, findingB])
    (fun _ f => if f.vulnerability.uuid = 21 then suppressIt else FindingAnalysis.zero)
    (fun _ => [violationV]) (fun _ _ => approveIt)
    rfl (by decide) (by decide)
    (by
      intro fa hfa
      rw [(findingAuditor_eq _ _ fa hfa).2]
      decide)
    (by
      intro va hva
      rw [(violationAuditor_eq _ _ va hva).2]
      decide)).trans (by decide)

/-! ## C9: what a failing findings fetch skips -/

/-- C9 (the claim fails).  In the sample pass both categories are audited, the
findings fetch of P2 fails, the violations fetch of P2 would return the violation
V and its disposition is not zero; yet the pass makes no violations fetch for P2
and sends no event from the violations loop of P2 (project index 1). -/
theorem violations_skipped_after_findings_error :
    (findingAuditor sampleOpts (sampleEnv true)).isSome = true ∧
    (violationAuditor sampleOpts (sampleEnv true)).isSome = true ∧
    (sampleEnv true).getFindings (egCtx Ctx.background) projectP2.uuid true =
      Except.error "connection refused" ∧
    (sampleEnv true).getViolations (egCtx Ctx.background) projectP2.uuid false =
      Except.ok [violationV] ∧
    (sampleEnv true).decideViolation Ctx.background
        ((sampleEnv true).pathJoin sampleOpts.violationPolicyPath "/analysis") Violation.zero =
      Except.ok approveIt ∧
    approveIt ≠ ViolationAnalysis.zero ∧
    Effect.call (Call.getAllViolations (egCtx Ctx.background) projectP2.uuid false) ∉
      scanPass sampleOpts (sampleEnv true) Ctx.background ∧
    sendsAt { project := 1, kind := Kind.violation, index := 0 }
      (scanPass sampleOpts (sampleEnv true) Ctx.background) = [] := by
  decide

/-- C9 (amended).  With finding auditing on, when the findings fetch of the project
`P` at position `pre.length` fails, the whole iteration of `P` is the fetch call
and the error log naming `P`: the pass is the project loop over `pre`, these two
effects, and the project loop over `post`; the violations of `P` are not fetched
and nothing is audited or sent for `P`. -/
theorem scanPass_of_findings_error (opts : Options) (env : Env) (ctx : Ctx)
    (pre post : List Project) (P : Project) (err : Err)
    (hP : env.getProjects (egCtx ctx) = Except.ok (pre ++ P :: post))
    (hfa : opts.findingPolicyPath ≠ "")
    (hfail : env.getFindings (egCtx ctx) P.uuid true = Except.error err) :
    scanPass opts env ctx =
      [Effect.log Level.info "starting portfolio analysis" none,
        Effect.call (Call.getAllProjects (egCtx ctx))] ++
      projectsLoop opts env ctx 0 pre ++
      [Effect.call (Call.getAllFindings (egCtx ctx) P.uuid true),
        Effect.log Level.error "failed to fetch findings" (some P.uuid)] ++
      projectsLoop opts env ctx (pre.length + 1) post ++
      [Effect.log Level.info "portfolio analysis completed" none] := by
  simp [scanPass, hP, projectsLoop_append, projectsLoop,
    projectBody_of_findings_error opts env ctx _ P err hfa hfail]

/-- Witness of the amended C9: the sample pass with P2 failing. -/
theorem scanPass_of_findings_error_witness :
    scanPass sampleOpts (sampleEnv true) Ctx.background =
      [Effect.log Level.info "starting portfolio analysis" none,
        Effect.call (Call.getAllProjects (egCtx Ctx.background))] ++
      projectsLoop sampleOpts (sampleEnv true) Ctx.background 0 [projectP1] ++
      [Effect.call (Call.getAllFindings (egCtx Ctx.background) projectP2.uuid true),
        Effect.log Level.error "failed to fetch findings" (some projectP2.uuid)] ++
      projectsLoop sampleOpts (sampleEnv true) Ctx.background ([projectP1].length + 1)
        [projectP3] ++
      [Effect.log Level.info "portfolio analysis completed" none] :=
  scanPass_of_findings_error sampleOpts (sampleEnv true) Ctx.background [projectP1]
    [projectP3] projectP2 "connection refused" rfl (by decide) rfl

/-! ## C10: the context of the calls -/

/-- C10 (the claim fails).  With `exec` run on the background context, the sample
pass makes a decision call, and the context of that call is not the task-group
context: it is `context.Background()`, which cancelling the task-group context
does not reach. -/
theorem decision_call_not_on_group_context :
    Call.decision Ctx.background "dtapac/finding/analysis"
        (Subject.finding (findingOf projectP1 findingA)) ∈
      calls (scanPass sampleOpts (sampleEnv true) Ctx.background) ∧
    (Call.decision Ctx.background "dtapac/finding/analysis"
        (Subject.finding (findingOf projectP1 findingA))).ctx ≠ egCtx Ctx.background ∧
    cancelReaches (egCtx Ctx.background) Ctx.background = false ∧
    ¬ (∀ c ∈ calls (scanPass sampleOpts (sampleEnv true) Ctx.background),
      c.ctx = egCtx Ctx.background) := by
  decide

theorem cancelReaches_background (c : Ctx) : cancelReaches c Ctx.background = false := rfl

theorem cancelReaches_self (c : Ctx) : cancelReaches (egCtx c) (egCtx c) = true := by
  simp [egCtx, cancelReaches]

theorem call_mem_submitterLoop (env : Env) (ctx : Ctx) (c : Call) :
    ∀ (evs : List AuditResult) (k : Nat), Effect.call c ∈ submitterLoop env ctx k evs →
      c.isDecision = false ∧ c.ctx = egCtx ctx := by
  intro evs
  induction evs with
  | nil => intro k h; simp [submitterLoop] at h
  | cons e rest ih =>
    intro k h
    cases e with
    | analysisRequest res =>
      simp only [submitterLoop, List.mem_append, List.mem_cons] at h
      rcases h with (h | h) | h
      · simp at h
        subst h
        exact ⟨rfl, rfl⟩
      · split at h <;> simp at h
      · exact ih (k + 1) h
    | violationAnalysisRequest res =>
      simp only [submitterLoop, List.mem_append, List.mem_cons] at h
      rcases h with (h | h) | h
      · simp at h
        subst h
        exact ⟨rfl, rfl⟩
      · split at h <;> simp at h
      · exact ih (k + 1) h
    | other d =>
      simp only [submitterLoop] at h
      exact ih k h

/-- C10 (amended).  In every scan pass each fetch call (projects, findings,
violations) is made with the task-group context `egCtx`, and each policy-decision
call is made with `context.Background()`; each submit call of the submitter loop
is made with `egCtx`.  Cancelling `egCtx` reaches the calls made with it and does
not reach the background context of the decision calls. -/
theorem call_contexts (opts : Options) (env : Env) (ctx : Ctx) :
    (∀ c ∈ calls (scanPass opts env ctx),
      (c.isDecision = false → c.ctx = egCtx ctx) ∧
      (c.isDecision = true → c.ctx = Ctx.background)) ∧
    (∀ (k : Nat) (evs : List AuditResult), ∀ c ∈ calls (submitterLoop env ctx k evs),
      c.isDecision = false ∧ c.ctx = egCtx ctx) ∧
    cancelReaches (egCtx ctx) (egCtx ctx) = true ∧
    cancelReaches (egCtx ctx) Ctx.background = false := by
  refine ⟨?_, ?_, cancelReaches_self ctx, cancelReaches_background _⟩
  · intro c hc
    rw [mem_calls] at hc
    unfold scanPass at hc
    simp only [List.mem_cons] at hc
    rcases hc with hc | hc | hc
    · cases hc
    · simp at hc
      subst hc
      exact ⟨fun _ => rfl, fun h => by simp [Call.isDecision] at h⟩
    · split at hc
      · simp at hc
      · rw [List.mem_append] at hc
        rcases hc with hc | hc
        · obtain ⟨p, -, i, -, hb⟩ := mem_projectsLoop opts env ctx _ _ 0 hc
          rcases call_mem_projectBody opts env ctx i p c hb with h | h | h
          · subst h
            exact ⟨fun _ => rfl, fun h => by simp [Call.isDecision] at h⟩
          · subst h
            exact ⟨fun _ => rfl, fun h => by simp [Call.isDecision] at h⟩
          · exact ⟨fun h2 => by simp [h.1] at h2, fun _ => h.2⟩
        · simp at hc
  · intro k evs c hc
    rw [mem_calls] at hc
    exact call_mem_submitterLoop env ctx c evs k hc

/-- Witness of the amended C10 on the sample pass: the findings fetch of P1 runs on
the task-group context, the decision call for finding A on the background
context, and the submit call of the resulting request on the task-group
context. -/
theorem call_contexts_witness :
    (Call.getAllFindings (egCtx Ctx.background) 1 true).ctx = egCtx Ctx.background ∧
    (Call.decision Ctx.background "dtapac/finding/analysis"
        (Subject.finding (findingOf projectP1 findingA))).ctx = Ctx.background ∧
    (Call.submitViolationAnalysis (egCtx Ctx.background)
        (violationRequestOf approveIt)).ctx = egCtx Ctx.background :=
  ⟨((call_contexts sampleOpts (sampleEnv true) Ctx.background).1
      (Call.getAllFindings (egCtx Ctx.background) 1 true) (by decide)).1 (by decide),
    ((call_contexts sampleOpts (sampleEnv true) Ctx.background).1
      (Call.decision Ctx.background "dtapac/finding/analysis"
        (Subject.finding (findingOf projectP1 findingA))) (by decide)).2 (by decide),
    ((call_contexts sampleOpts (sampleEnv true) Ctx.background).2.1 0 [requestV]
      (Call.submitViolationAnalysis (egCtx Ctx.background) (violationRequestOf approveIt))
      (by decide)).2⟩

/-! ## C5: the submitter loop -/

/-- C5.  For every merged sequence of events and every assignment of results to
the write calls (`env.submit`), the calls of the submitter loop are one write call
per `AnalysisRequest` or `ViolationAnalysisRequest` event, in the order of the
sequence, with the event as argument, whatever write failed before; and the
goroutine returns nil. -/
theorem submitter_writes_every_event (env : Env) (ctx : Ctx) (merged : List AuditResult) :
    calls (submitter env ctx merged).1 = expectedWrites ctx merged ∧
    (submitter env ctx merged).2 = none := by
  have key : ∀ (evs : List AuditResult) (k : Nat),
      calls (submitterLoop env ctx k evs) = expectedWrites ctx evs := by
    intro evs
    induction evs with
    | nil => intro k; rfl
    | cons e rest ih =>
      intro k
      cases e with
      | analysisRequest res =>
        simp only [submitterLoop, expectedWrites, calls_append, calls, ih (k + 1)]
        cases env.submit k (Call.submitAnalysis (egCtx ctx) res) <;> simp [calls, ih (k + 1)]
      | violationAnalysisRequest res =>
        simp only [submitterLoop, expectedWrites, calls_append, calls, ih (k + 1)]
        cases env.submit k (Call.submitViolationAnalysis (egCtx ctx) res) <;>
          simp [calls, ih (k + 1)]
      | other d => simp only [submitterLoop, expectedWrites, ih k]
  exact ⟨key merged 0, rfl⟩

/-! ## C2: the trigger debouncer -/

theorem notify_of_le (s : Nat) (hs : s ≤ triggerCap) :
    (notify s).1 = 1 ∧ (notify s).2 ≠ SelectOutcome.blocked := by
  unfold notify selectSend triggerCap
  unfold triggerCap at hs
  by_cases h : s < 1
  · have : s = 0 := by omega
    subst this
    simp
  · have : s = 1 := by omega
    subst this
    simp

/-- C2.  From every state `s` of the capacity-1 trigger buffer (`s` pending
signals, `s ≤ 1`) and for every sequence of `N ≥ 1` notifications handled with no
receive in between, the buffer holds exactly one pending signal afterwards (one
receive empties it), there was one `select` per notification, and none of them
blocked. -/
theorem debouncer_coalesces (revisions : List String) (s : Nat) (hs : s ≤ triggerCap)
    (hN : 1 ≤ revisions.length) :
    (debouncer revisions s).1 = 1 ∧
    consume (debouncer revisions s).1 = some 0 ∧
    (debouncer revisions s).2.length = revisions.length ∧
    ∀ o ∈ (debouncer revisions s).2, o ≠ SelectOutcome.blocked := by
  have key : (debouncer revisions s).1 = 1 ∧
      (debouncer revisions s).2.length = revisions.length ∧
      ∀ o ∈ (debouncer revisions s).2, o ≠ SelectOutcome.blocked := by
    induction revisions generalizing s with
    | nil => simp at hN
    | cons r rest ih =>
      obtain ⟨h1, h2⟩ := notify_of_le s hs
      cases rest with
      | nil =>
        simp only [debouncer, h1, List.length_singleton, List.mem_singleton, true_and]
        intro o ho
        rw [ho]
        exact h2
      | cons r2 rest2 =>
        have ih2 := ih (notify s).1 (by rw [h1]; exact le_refl _) (by simp)
        refine ⟨ih2.1, ?_, ?_⟩
        · simp only [debouncer, List.length_cons] at ih2 ⊢
          rw [ih2.2.1]
        · intro o ho
          simp only [debouncer, List.mem_cons] at ho
          rcases ho with ho | ho
          · rw [ho]; exact h2
          · exact ih2.2.2 o (by simpa [debouncer] using ho)
  exact ⟨key.1, by rw [key.1]; rfl, key.2.1, key.2.2⟩

/-- Witness of C2: three notifications on an empty buffer and two on a full one
leave one pending signal. -/
theorem debouncer_coalesces_witness :
    (debouncer ["r1", "r2", "r3"] 0).1 = 1 ∧ (debouncer ["r4", "r5"] 1).1 = 1 ∧
    (debouncer ["r1", "r2", "r3"] 0).2 =
      [SelectOutcome.sent, SelectOutcome.dropped, SelectOutcome.dropped] :=
  ⟨(debouncer_coalesces ["r1", "r2", "r3"] 0 (by decide) (by decide)).1,
    (debouncer_coalesces ["r4", "r5"] 1 (by decide) (by decide)).1, by decide⟩

/-! ## C3: the fan-in `merge` -/

theorem sum_map_set {β : Type} (f : β → Nat) :
    ∀ (l : List β) (i : Nat) (a b : β), l[i]? = some a →
      ((l.set i b).map f).sum + f a = (l.map f).sum + f b := by
  intro l
  induction l with
  | nil => intro i a b h; simp at h
  | cons x rest ih =>
    intro i a b h
    cases i with
    | zero =>
      simp at h
      subst h
      simp only [List.set_cons_zero, List.map_cons, List.sum_cons]
      omega
    | succ i =>
      simp at h
      have := ih i a b h
      simp only [List.set_cons_succ, List.map_cons, List.sum_cons]
      omega

theorem fromSource_append {α : Type} (i : Nat) (xs ys : List (Nat × α)) :
    fromSource i (xs ++ ys) = fromSource i xs ++ fromSource i ys := by
  induction xs with
  | nil => rfl
  | cons x rest ih =>
    obtain ⟨k, v⟩ := x
    by_cases h : k = i <;> simp [fromSource, h, ih]

theorem exists_active {α : Type} :
    ∀ (srcs : List (Source α)), 0 < (srcs.map Source.active).sum →
      ∃ (i : Nat) (src : Source α), srcs[i]? = some src ∧ src.worker ≠ Worker.finished := by
  intro srcs
  induction srcs with
  | nil => intro h; simp at h
  | cons x rest ih =>
    intro h
    by_cases hx : x.worker = Worker.finished
    · have hx0 : x.active = 0 := by simp [Source.active, hx]
      simp [hx0] at h
      obtain ⟨i, src, h1, h2⟩ := ih h
      exact ⟨i + 1, src, by simpa using h1, h2⟩
    · exact ⟨0, x, by simp, hx⟩

theorem finished_of_sum_zero {α : Type} (srcs : List (Source α))
    (h : (srcs.map Source.active).sum = 0) (i : Nat) (src : Source α)
    (hi : srcs[i]? = some src) : src.worker = Worker.finished := by
  by_contra hne
  have h1 : src.active = 1 := by
    unfold Source.active
    split
    · rename_i hw; exact absurd hw hne
    · rfl
  have hmem : src.active ∈ srcs.map Source.active :=
    List.mem_map.mpr ⟨src, List.mem_iff_getElem?.mpr ⟨i, hi⟩, rfl⟩
  have := List.single_le_sum (fun _ _ => Nat.zero_le _) _ hmem
  omega

theorem mergeInv_init {α : Type} (cs : List (List α)) : MergeInv cs (merge cs) := by
  refine ⟨?_, ?_, ?_, ?_, ?_, ?_, ?_, ?_, ?_⟩
  · simp [merge]
  · intro i src h
    simp only [merge, List.getElem?_map] at h
    cases hc : cs[i]? with
    | none => simp [hc] at h
    | some c =>
      simp [hc] at h
      subst h
      simp [merge, fromSource, Worker.held]
  · intro x hx
    simp [merge] at hx
  · intro i src h hw
    simp only [merge, List.getElem?_map] at h
    cases hc : cs[i]? with
    | none => simp [hc] at h
    | some c =>
      simp [hc] at h
      subst h
      simp at hw
  · simp only [merge, List.map_map]
    induction cs with
    | nil => rfl
    | cons c rest ih =>
      simp only [List.length_cons, List.map_cons, List.sum_cons, Function.comp, Source.active]
      rw [← ih]
      omega
  · intro h; simp [merge] at h
  · simp [merge]
  · intro h; simp [merge] at h
  · rfl


theorem mergeInv_recv {α : Type} (cs : List (List α)) (s : MergeState α) (i : Nat)
    (h : MergeInv cs s) : MergeInv cs (s.recv i) := by
  unfold MergeState.recv
  split
  · rename_i n rest hi
    have hcons := h.conserve i _ hi
    refine ⟨?_, ?_, ?_, ?_, ?_, ?_, ?_, ?_, ?_⟩
    · simpa using h.len
    · intro k src hk
      simp only [List.getElem?_set] at hk
      by_cases hik : i = k
      · subst hik
        have hlt : i < s.srcs.length := by
          rcases List.getElem?_eq_some.mp hi with ⟨hlt, -⟩
          exact hlt
        simp [hlt] at hk
        subst hk
        simpa [Worker.held] using hcons
      · simp [hik] at hk
        exact h.conserve k src hk
    · exact h.tags
    · intro k src hk hw
      simp only [List.getElem?_set] at hk
      by_cases hik : i = k
      · subst hik
        have hlt : i < s.srcs.length := by
          rcases List.getElem?_eq_some.mp hi with ⟨hlt, -⟩
          exact hlt
        simp [hlt] at hk
        subst hk
        simp at hw
      · simp [hik] at hk
        exact h.drained k src hk hw
    · have := sum_map_set Source.active s.srcs i _
        { pending := rest, worker := Worker.sending n } hi
      simp only [Source.active] at this
      simp only [h.counter, Source.active]
      omega
    · exact h.closedWg
    · exact h.room
    · exact h.done
    · exact h.noPanic
  · rename_i hi
    have hcons := h.conserve i _ hi
    have hlt : i < s.srcs.length := by
      rcases List.getElem?_eq_some.mp hi with ⟨hlt, -⟩
      exact hlt
    have hsum := sum_map_set Source.active s.srcs i _
        { pending := ([] : List α), worker := Worker.finished } hi
    simp only [Source.active] at hsum
    have hcnt := h.counter
    simp only [Source.active] at hcnt
    refine ⟨?_, ?_, ?_, ?_, ?_, ?_, ?_, ?_, ?_⟩
    · simpa using h.len
    · intro k src hk
      simp only [List.getElem?_set] at hk
      by_cases hik : i = k
      · subst hik
        simp [hlt] at hk
        subst hk
        simpa [Worker.held] using hcons
      · simp [hik] at hk
        exact h.conserve k src hk
    · exact h.tags
    · intro k src hk hw
      simp only [List.getElem?_set] at hk
      by_cases hik : i = k
      · subst hik
        simp [hlt] at hk
        subst hk
        rfl
      · simp [hik] at hk
        exact h.drained k src hk hw
    · simp only [Source.active]
      omega
    · intro hc
      have := h.closedWg hc
      simp only
      omega
    · exact h.room
    · exact h.done
    · exact h.noPanic
  · exact h


theorem mergeInv_send {α : Type} (cs : List (List α)) (s : MergeState α) (i : Nat)
    (h : MergeInv cs s) : MergeInv cs (s.send i) := by
  unfold MergeState.send
  split
  · rename_i rest n hi
    have hcons := h.conserve i _ hi
    have hlt : i < s.srcs.length := by
      rcases List.getElem?_eq_some.mp hi with ⟨hlt, -⟩
      exact hlt
    by_cases hc : s.closed = true
    · exfalso
      have hwg := h.closedWg hc
      rw [h.counter] at hwg
      have := finished_of_sum_zero s.srcs hwg i _ hi
      simp at this
    · simp only [hc, Bool.false_eq_true, if_false]
      by_cases hroom : s.out.length < outCap
      · simp only [hroom, if_true]
        have hsum := sum_map_set Source.active s.srcs i _
          { pending := rest, worker := Worker.receiving } hi
        simp only [Source.active] at hsum
        refine ⟨?_, ?_, ?_, ?_, ?_, ?_, ?_, ?_, ?_⟩
        · simpa using h.len
        · intro k src hk
          simp only [List.getElem?_set] at hk
          by_cases hik : i = k
          · subst hik
            simp [hlt] at hk
            subst hk
            simp only [← List.append_assoc, fromSource_append, fromSource, if_true]
            simpa [Worker.held, fromSource_append] using hcons
          · simp [hik] at hk
            have := h.conserve k src hk
            simp only [← List.append_assoc, fromSource_append, fromSource, hik, if_false,
              List.append_nil]
            simpa [fromSource_append] using this
        · intro x hx
          simp only [← List.append_assoc, List.mem_append, List.mem_singleton] at hx
          rcases hx with hx | hx
          · exact h.tags x (by simpa using hx)
          · subst hx
            simp only
            rw [← h.len]
            exact hlt
        · intro k src hk hw
          simp only [List.getElem?_set] at hk
          by_cases hik : i = k
          · subst hik
            simp [hlt] at hk
            subst hk
            simp at hw
          · simp [hik] at hk
            exact h.drained k src hk hw
        · simp only [h.counter, Source.active]
          omega
        · intro hc2
          simp at hc2
        · simp only [List.length_append, List.length_singleton]
          unfold outCap at hroom ⊢
          omega
        · intro hd
          have := h.done hd
          exact absurd this.1 hc
        · exact h.noPanic
      · simp only [hroom, if_false]
        exact h
  · exact h

theorem mergeInv_close {α : Type} (cs : List (List α)) (s : MergeState α)
    (h : MergeInv cs s) : MergeInv cs s.close := by
  unfold MergeState.close
  split
  · rename_i hc
    exact ⟨h.len, h.conserve, h.tags, h.drained, h.counter, fun _ => hc.1, h.room,
      fun hd => by simp [(h.done hd).1] at hc, h.noPanic⟩
  · exact h

theorem mergeInv_read {α : Type} (cs : List (List α)) (s : MergeState α)
    (h : MergeInv cs s) : MergeInv cs s.read := by
  unfold MergeState.read
  split
  · exact h
  · rename_i hd
    split
    · rename_i x rest hout
      have hconserve := h.conserve
      have htags := h.tags
      have hroom := h.room
      simp only [hout] at hconserve htags hroom
      refine ⟨h.len, ?_, ?_, h.drained, h.counter, h.closedWg, ?_, ?_, h.noPanic⟩
      · intro k src hk
        simpa using hconserve k src hk
      · intro y hy
        exact htags y (by simpa using hy)
      · simp only [List.length_cons] at hroom
        simp only
        omega
      · intro hd2
        exact absurd hd2 hd
    · rename_i hout
      split
      · rename_i hc
        exact ⟨h.len, h.conserve, h.tags, h.drained, h.counter, h.closedWg, h.room,
          fun _ => ⟨hc, hout⟩, h.noPanic⟩
      · exact h

theorem mergeInv_step {α : Type} (cs : List (List α)) (s : MergeState α) (mv : Move)
    (h : MergeInv cs s) : MergeInv cs (s.step mv) := by
  cases mv with
  | recv i => exact mergeInv_recv cs s i h
  | send i => exact mergeInv_send cs s i h
  | close => exact mergeInv_close cs s h
  | read => exact mergeInv_read cs s h

theorem mergeInv_run {α : Type} (cs : List (List α)) :
    ∀ (sched : List Move) (s : MergeState α), MergeInv cs s → MergeInv cs (s.run sched) := by
  intro sched
  induction sched with
  | nil => intro s h; exact h
  | cons mv rest ih => intro s h; exact ih _ (mergeInv_step cs s mv h)


theorem work_recv {α : Type} (s : MergeState α) (i : Nat) :
    s.recv i = s ∨ (s.recv i).work + 1 = s.work := by
  unfold MergeState.recv
  split
  · rename_i n rest hi
    right
    have hsum := sum_map_set Source.work s.srcs i _
      { pending := rest, worker := Worker.sending n } hi
    simp only [Source.work, List.length_cons] at hsum
    simp only [MergeState.work, Source.work]
    omega
  · rename_i hi
    right
    have hsum := sum_map_set Source.work s.srcs i _
      { pending := ([] : List α), worker := Worker.finished } hi
    simp only [Source.work, List.length_nil] at hsum
    simp only [MergeState.work, Source.work]
    omega
  · left; rfl

theorem work_send {α : Type} (cs : List (List α)) (s : MergeState α) (i : Nat)
    (h : MergeInv cs s) : s.send i = s ∨ (s.send i).work + 1 = s.work := by
  unfold MergeState.send
  split
  · rename_i rest n hi
    by_cases hc : s.closed = true
    · exfalso
      have hwg := h.closedWg hc
      rw [h.counter] at hwg
      have := finished_of_sum_zero s.srcs hwg i _ hi
      simp at this
    · simp only [hc, Bool.false_eq_true, if_false]
      by_cases hroom : s.out.length < outCap
      · right
        have hsum := sum_map_set Source.work s.srcs i _
          { pending := rest, worker := Worker.receiving } hi
        simp only [Source.work] at hsum
        simp only [hroom, if_true, MergeState.work, Source.work, List.length_append,
          List.length_singleton, hc, Bool.false_eq_true, if_false]
        omega
      · left
        simp only [hroom, if_false]
  · left; rfl

theorem work_close {α : Type} (s : MergeState α) :
    s.close = s ∨ s.close.work + 1 = s.work := by
  unfold MergeState.close
  split
  · rename_i hc
    right
    simp only [MergeState.work, hc.2, Bool.false_eq_true, if_false, if_true]
    omega
  · left; rfl

theorem work_read {α : Type} (s : MergeState α) :
    s.read = s ∨ s.read.work + 1 = s.work := by
  unfold MergeState.read
  split
  · left; rfl
  · rename_i hd
    split
    · rename_i x rest hout
      right
      simp only [MergeState.work, hout, List.length_cons]
      omega
    · rename_i hout
      split
      · right
        simp [MergeState.work, hd]
      · left; rfl

theorem work_step {α : Type} (cs : List (List α)) (s : MergeState α) (mv : Move)
    (h : MergeInv cs s) : s.step mv = s ∨ (s.step mv).work + 1 = s.work := by
  cases mv with
  | recv i => exact work_recv s i
  | send i => exact work_send cs s i h
  | close => exact work_close s
  | read => exact work_read s

/-- A state whose reader has not finished has a move that makes progress. -/
theorem progress_step {α : Type} (cs : List (List α)) (s : MergeState α)
    (h : MergeInv cs s) (hd : s.readerDone = false) :
    ∃ mv, (s.step mv).work + 1 = s.work := by
  have stepOf : ∀ mv, s.step mv ≠ s → ∃ mv, (s.step mv).work + 1 = s.work := by
    intro mv hne
    rcases work_step cs s mv h with h1 | h1
    · exact absurd h1 hne
    · exact ⟨mv, h1⟩
  cases hout : s.out with
  | cons x rest =>
    apply stepOf Move.read
    intro heq
    have : (s.step Move.read).out = rest := by
      simp [MergeState.step, MergeState.read, hd, hout]
    rw [heq, hout] at this
    have hlen := congrArg List.length this
    simp at hlen
  | nil =>
    by_cases hact : 0 < (s.srcs.map Source.active).sum
    · obtain ⟨i, src, hi, hw⟩ := exists_active s.srcs hact
      have hlt : i < s.srcs.length := by
        rcases List.getElem?_eq_some.mp hi with ⟨hlt, -⟩
        exact hlt
      have hnc : s.closed = false := by
        by_contra hc
        simp at hc
        have := h.closedWg hc
        rw [h.counter] at this
        omega
      obtain ⟨pending, worker⟩ := src
      cases worker with
      | finished => simp at hw
      | receiving =>
        apply stepOf (Move.recv i)
        intro heq
        have hsrc := congrArg (fun t => t.srcs[i]?) heq
        cases pending with
        | nil => simp [MergeState.step, MergeState.recv, hi, hlt] at hsrc
        | cons n rest => simp [MergeState.step, MergeState.recv, hi, hlt] at hsrc
      | sending n =>
        apply stepOf (Move.send i)
        intro heq
        have hsrc := congrArg (fun t => t.srcs[i]?) heq
        simp [MergeState.step, MergeState.send, hi, hlt, hnc, hout, outCap] at hsrc
    · have hzero : (s.srcs.map Source.active).sum = 0 := by omega
      by_cases hc : s.closed = true
      · apply stepOf Move.read
        intro heq
        have := congrArg (fun t => t.readerDone) heq
        simp [MergeState.step, MergeState.read, hd, hout, hc] at this
      · apply stepOf Move.close
        intro heq
        have := congrArg (fun t => t.closed) heq
        simp [MergeState.step, MergeState.close, h.counter, hzero, hc] at this

/-- From every state of `merge` the reader's loop can be brought to its end. -/
theorem can_finish {α : Type} (cs : List (List α)) :
    ∀ (n : Nat) (s : MergeState α), MergeInv cs s → s.work ≤ n →
      ∃ more, (s.run more).readerDone = true := by
  intro n
  induction n with
  | zero =>
    intro s h hw
    by_cases hd : s.readerDone = true
    · exact ⟨[], hd⟩
    · simp [MergeState.work, hd] at hw
  | succ n ih =>
    intro s h hw
    by_cases hd : s.readerDone = true
    · exact ⟨[], hd⟩
    · obtain ⟨mv, hmv⟩ := progress_step cs s h (by simpa using hd)
      obtain ⟨more, hmore⟩ := ih (s.step mv) (mergeInv_step cs s mv h) (by omega)
      exact ⟨mv :: more, hmore⟩


theorem sum_indicator_range (k : Nat) :
    ∀ (n : Nat), ((List.range n).map (fun i => if k = i then 1 else 0)).sum =
      if k < n then 1 else 0 := by
  intro n
  induction n with
  | zero => simp
  | succ n ih =>
    rw [List.range_succ, List.map_append, List.sum_append, ih]
    by_cases h1 : k < n
    · have h2 : k ≠ n := by omega
      have h3 : k < n + 1 := by omega
      simp [h1, h2, h3]
    · by_cases h2 : k = n
      · have h3 : k < n + 1 := by omega
        simp [h1, h2]
      · have h3 : ¬ k < n + 1 := by omega
        simp [h1, h2, h3]

/-- A tagged sequence whose tags are below `n` is as long as its `n` projections
together. -/
theorem length_eq_sum_fromSource {α : Type} (n : Nat) :
    ∀ (l : List (Nat × α)), (∀ x ∈ l, x.1 < n) →
      l.length = ((List.range n).map (fun i => (fromSource i l).length)).sum := by
  intro l
  induction l with
  | nil => intro _; simp [fromSource]
  | cons x rest ih =>
    intro h
    obtain ⟨k, v⟩ := x
    have hk : k < n := h (k, v) (by simp)
    have hrest := ih (fun y hy => h y (by simp [hy]))
    have hsplit : (fun i => (fromSource i ((k, v) :: rest)).length) =
        fun i => (if k = i then 1 else 0) + (fromSource i rest).length := by
      funext i
      by_cases hki : k = i <;> simp [fromSource, hki]
      omega
    rw [hsplit, List.sum_map_add, sum_indicator_range, ← hrest]
    simp [hk]
    omega

/-- When the reader's loop has ended, everything has been delivered: the values
delivered from goroutine `i` are the input `i`, and the delivered sequence is as
long as the inputs together. -/
theorem delivered_of_done {α : Type} (cs : List (List α)) (s : MergeState α)
    (h : MergeInv cs s) (hd : s.readerDone = true) :
    (∀ (i : Nat) (c : List α), cs[i]? = some c → fromSource i s.delivered = c) ∧
    s.delivered.length = (cs.map List.length).sum := by
  obtain ⟨hclosed, hout⟩ := h.done hd
  have hzero : (s.srcs.map Source.active).sum = 0 := by
    rw [← h.counter]
    exact h.closedWg hclosed
  have hproj : ∀ (i : Nat) (c : List α), cs[i]? = some c → fromSource i s.delivered = c := by
    intro i c hc
    have hlt : i < s.srcs.length := by
      rw [h.len]
      rcases List.getElem?_eq_some.mp hc with ⟨hlt, -⟩
      exact hlt
    have hi : s.srcs[i]? = some s.srcs[i] := List.getElem?_eq_getElem hlt
    have hfin := finished_of_sum_zero s.srcs hzero i _ hi
    have hpend := h.drained i _ hi hfin
    have hcons := h.conserve i _ hi
    rw [hc, hout, hfin, hpend] at hcons
    simp [Worker.held] at hcons
    exact hcons.symm
  refine ⟨hproj, ?_⟩
  have hcs : cs = (List.range cs.length).map (fun i => fromSource i s.delivered) := by
    apply List.ext_getElem?
    intro i
    by_cases hlt : i < cs.length
    · have hc : cs[i]? = some cs[i] := List.getElem?_eq_getElem hlt
      rw [hc, List.getElem?_map, List.getElem?_range hlt]
      simp [hproj i _ hc]
    · have h1 : cs[i]? = none := List.getElem?_eq_none (by omega)
      have h2 : (List.range cs.length)[i]? = none :=
        List.getElem?_eq_none (by simp; omega)
      rw [h1, List.getElem?_map, h2]
      rfl
  have htags : ∀ x ∈ s.delivered, x.1 < cs.length := fun x hx =>
    h.tags x (by simp [hx])
  rw [length_eq_sum_fromSource cs.length s.delivered htags]
  conv_rhs => rw [hcs]
  rw [List.map_map]
  rfl

/-- C3.  For every list `cs` of finite inputs and every schedule of the
goroutines, in the state reached: (1) when the reader's loop has ended, the
values it received from goroutine `i` are exactly the input `i` in its order, for
every `i`, every received value comes from one of the inputs, and the number of
received values is the sum of the input lengths; (2) at every moment the values
received from goroutine `i` are an initial part of input `i`; (3) no send hit a
closed channel; (4) every move either changes nothing or brings the end one step
closer; (5) while the reader has not finished some move is possible;
(6) the schedule can be continued to the end of the reader's loop. -/
theorem merge_interleaves {α : Type} (cs : List (List α)) (sched : List Move) :
    (((merge cs).run sched).readerDone = true →
      (∀ (i : Nat) (c : List α), cs[i]? = some c →
        fromSource i ((merge cs).run sched).delivered = c) ∧
      (∀ x ∈ ((merge cs).run sched).delivered, x.1 < cs.length) ∧
      ((merge cs).run sched).delivered.length = (cs.map List.length).sum) ∧
    (∀ (i : Nat) (c : List α), cs[i]? = some c →
      ∃ rest, fromSource i ((merge cs).run sched).delivered ++ rest = c) ∧
    ((merge cs).run sched).panicked = false ∧
    (∀ mv, ((merge cs).run sched).step mv = (merge cs).run sched ∨
      (((merge cs).run sched).step mv).work + 1 = ((merge cs).run sched).work) ∧
    (((merge cs).run sched).readerDone = false →
      ∃ mv, (((merge cs).run sched).step mv).work + 1 = ((merge cs).run sched).work) ∧
    (∃ more, (((merge cs).run sched).run more).readerDone = true) := by
  have h : MergeInv cs ((merge cs).run sched) := mergeInv_run cs sched _ (mergeInv_init cs)
  refine ⟨?_, ?_, h.noPanic, fun mv => work_step cs _ mv h, progress_step cs _ h,
    can_finish cs _ _ h (le_refl _)⟩
  · intro hd
    obtain ⟨h1, h2⟩ := delivered_of_done cs _ h hd
    exact ⟨h1, fun x hx => h.tags x (by simp [hx]), h2⟩
  · intro i c hc
    have hlt : i < ((merge cs).run sched).srcs.length := by
      rw [h.len]
      rcases List.getElem?_eq_some.mp hc with ⟨hlt, -⟩
      exact hlt
    have hcons := h.conserve i _ (List.getElem?_eq_getElem hlt)
    rw [hc] at hcons
    simp only [Option.some.injEq, fromSource_append, List.append_assoc] at hcons
    exact ⟨_, hcons.symm⟩


/-- Witness of C3: the inputs [a1, a2, a3] and [b1, b2] under the sample schedule
give five outputs, with a1 before a2 before a3 and b1 before b2. -/
theorem merge_interleaves_witness :
    ((merge [["a1", "a2", "a3"], ["b1", "b2"]]).run sampleSchedule).delivered.map Prod.snd =
      ["b1", "a1", "a2", "a3", "b2"] ∧
    fromSource 0 ((merge [["a1", "a2", "a3"], ["b1", "b2"]]).run sampleSchedule).delivered =
      ["a1", "a2", "a3"] ∧
    fromSource 1 ((merge [["a1", "a2", "a3"], ["b1", "b2"]]).run sampleSchedule).delivered =
      ["b1", "b2"] ∧
    ((merge [["a1", "a2", "a3"], ["b1", "b2"]]).run sampleSchedule).delivered.length =
      ([["a1", "a2", "a3"], ["b1", "b2"]].map List.length).sum :=
  ⟨by decide,
    ((merge_interleaves [["a1", "a2", "a3"], ["b1", "b2"]] sampleSchedule).1 (by decide)).1
      0 ["a1", "a2", "a3"] rfl,
    ((merge_interleaves [["a1", "a2", "a3"], ["b1", "b2"]] sampleSchedule).1 (by decide)).1
      1 ["b1", "b2"] rfl,
    ((merge_interleaves [["a1", "a2", "a3"], ["b1", "b2"]] sampleSchedule).1 (by decide)).2.2⟩

/-! ## C4: the write calls never overlap -/

/-- A scan pass makes no write call: its calls are the three fetches and the
policy decisions. -/
theorem scanPass_no_write (opts : Options) (env : Env) (ctx : Ctx) (c : Call)
    (h : Effect.call c ∈ scanPass opts env ctx) : c.isWrite = false := by
  unfold scanPass at h
  simp only [List.mem_cons] at h
  rcases h with h | h | h
  · cases h
  · simp at h
    subst h
    rfl
  · split at h
    · simp at h
    · rw [List.mem_append] at h
      rcases h with h | h
      · obtain ⟨p, -, i, -, hb⟩ := mem_projectsLoop opts env ctx _ _ 0 h
        rcases call_mem_projectBody opts env ctx i p c hb with h1 | h1 | h1
        · subst h1; rfl
        · subst h1; rfl
        · cases c <;> simp [Call.isDecision] at h1
          rfl
      · simp at h

theorem scannerTrace_no_write (opts : Options) (env : Env) (ctx : Ctx) (c : Call) :
    ∀ (triggers : Nat), Effect.call c ∈ scannerTrace opts env ctx triggers →
      c.isWrite = false := by
  intro triggers
  induction triggers with
  | zero => intro h; simp [scannerTrace] at h
  | succ n ih =>
    intro h
    simp only [scannerTrace, List.mem_append] at h
    rcases h with h | h
    · exact scanPass_no_write opts env ctx c h
    · exact ih h

theorem debouncerTrace_no_call (c : Call) :
    ∀ (revisions : List String), Effect.call c ∉ debouncerTrace revisions := by
  intro revisions
  induction revisions with
  | nil => simp [debouncerTrace]
  | cons r rest ih => simpa [debouncerTrace] using ih

theorem quiet_next (r : Routine) (h : r.quiet) : r.next.quiet := by
  obtain ⟨h1, h2⟩ := h
  unfold Routine.next
  split
  · exact ⟨h1, fun c hc => by simp at hc⟩
  · split
    · rename_i c rest htodo
      rw [htodo] at h1
      refine ⟨fun d hd => h1 d (by simp [hd]), ?_⟩
      intro d hd
      simp at hd
      subst hd
      exact h1 c (by simp)
    · rename_i x rest hne htodo
      rw [htodo] at h1
      exact ⟨fun d hd => h1 d (by simp [hd]), fun d hd => by simp at hd⟩
    · exact ⟨h1, h2⟩

/-- A step of a goroutine that makes no write call leaves the write calls as they
are. -/
theorem routineStep_of_quiet (env : Env) (who : Goroutine) (r : Routine) (s : SysState)
    (h : r.quiet) : s.routineStep env who r = s := by
  obtain ⟨h1, h2⟩ := h
  unfold SysState.routineStep
  split
  · rename_i c hc
    simp [h2 c hc]
  · split
    · rename_i c rest htodo
      have := h1 c (by simp [htodo])
      simp [this]
    · rfl

theorem serialFrom_append (e : CallEvent) :
    ∀ (history : List CallEvent) (depth : Nat),
      serialFrom depth (history ++ [e]) =
        (serialFrom depth history).bind (fun d => serialFrom d [e]) := by
  intro history
  induction history with
  | nil => intro depth; rfl
  | cons x rest ih =>
    intro depth
    cases x with
    | started who c =>
      by_cases hd : depth = 0
      · simp [serialFrom, hd, ih 1]
      · simp [serialFrom, hd]
    | returned who c err =>
      by_cases hd : depth = 1
      · simp [serialFrom, hd, ih 0]
      · simp [serialFrom, hd]

/-- Entering a write call from a state with no call in progress. -/
theorem enter_keeps (s : SysState) (c : Call) (h1 : s.inflight = [])
    (h2 : serialFrom 0 s.history = some 0)
    (h3 : ∀ ev ∈ s.history, ev.who = Goroutine.submitter) :
    (s.enter c).inflight = (s.enter c).current.toList ∧
      serialFrom 0 (s.enter c).history = some (s.enter c).inflight.length ∧
      (∀ ev ∈ (s.enter c).history, ev.who = Goroutine.submitter) ∧
      (s.enter c).scanner = s.scanner ∧ (s.enter c).debouncer = s.debouncer := by
  refine ⟨?_, ?_, ?_, rfl, rfl⟩
  · simp [SysState.enter, h1]
  · simp [SysState.enter, h1, serialFrom_append, h2, serialFrom]
  · intro ev hev
    simp only [SysState.enter, List.mem_append, List.mem_singleton] at hev
    rcases hev with hev | hev
    · exact h3 ev hev
    · subst hev
      rfl

/-- The invariant of the pipeline: the write calls in progress are the call the
submitter loop is inside of, the history of the write calls is serial and made by
the submitter loop alone, and the scanner and the debouncer have no write call to
make. -/
theorem sys_step_keeps (env : Env) (ctx : Ctx) (s : SysState) (mv : SysMove)
    (h1 : s.inflight = s.current.toList)
    (h2 : serialFrom 0 s.history = some s.inflight.length)
    (h3 : ∀ ev ∈ s.history, ev.who = Goroutine.submitter)
    (h4 : s.scanner.quiet) (h5 : s.debouncer.quiet) :
    (s.step env ctx mv).inflight = (s.step env ctx mv).current.toList ∧
      serialFrom 0 (s.step env ctx mv).history =
        some (s.step env ctx mv).inflight.length ∧
      (∀ ev ∈ (s.step env ctx mv).history, ev.who = Goroutine.submitter) ∧
      (s.step env ctx mv).scanner.quiet ∧ (s.step env ctx mv).debouncer.quiet := by
  cases mv with
  | ret =>
    cases hc : s.current with
    | none =>
      simp only [SysState.step, hc]
      exact ⟨h1.trans (by rw [hc]), h2, h3, h4, h5⟩
    | some c =>
      rw [hc] at h1
      simp only [Option.toList] at h1
      rw [h1] at h2
      refine ⟨?_, ?_, ?_, ?_, ?_⟩
      · simp [SysState.step, hc, h1]
      · simp [SysState.step, hc, h1, serialFrom_append, h2, serialFrom]
      · intro ev hev
        simp only [SysState.step, hc, List.mem_append, List.mem_singleton] at hev
        rcases hev with hev | hev
        · exact h3 ev hev
        · subst hev
          rfl
      · simpa [SysState.step, hc] using h4
      · simpa [SysState.step, hc] using h5
  | scan =>
    simp only [SysState.step, routineStep_of_quiet env _ _ s h4]
    exact ⟨h1, h2, h3, quiet_next _ h4, h5⟩
  | debounce =>
    simp only [SysState.step, routineStep_of_quiet env _ _ s h5]
    exact ⟨h1, h2, h3, h4, quiet_next _ h5⟩
  | merge m =>
    cases m with
    | recv i => exact ⟨h1, h2, h3, h4, h5⟩
    | send i => exact ⟨h1, h2, h3, h4, h5⟩
    | close => exact ⟨h1, h2, h3, h4, h5⟩
    | read =>
      cases hc : s.current with
      | some c =>
        simp only [SysState.step, hc]
        exact ⟨h1.trans (by rw [hc]), h2, h3, h4, h5⟩
      | none =>
        rw [hc] at h1
        simp only [Option.toList] at h1
        rw [h1] at h2
        simp only [SysState.step, hc]
        split
        · exact ⟨(enter_keeps _ _ h1 h2 h3).1, (enter_keeps _ _ h1 h2 h3).2.1,
            (enter_keeps _ _ h1 h2 h3).2.2.1, h4, h5⟩
        · exact ⟨(enter_keeps _ _ h1 h2 h3).1, (enter_keeps _ _ h1 h2 h3).2.1,
            (enter_keeps _ _ h1 h2 h3).2.2.1, h4, h5⟩
        · exact ⟨by simpa [hc] using h1, by simpa [h1] using h2, h3, h4, h5⟩

theorem sys_run_keeps (env : Env) (ctx : Ctx) :
    ∀ (sched : List SysMove) (s : SysState), s.inflight = s.current.toList →
      serialFrom 0 s.history = some s.inflight.length →
      (∀ ev ∈ s.history, ev.who = Goroutine.submitter) →
      s.scanner.quiet → s.debouncer.quiet →
      (s.run env ctx sched).inflight = (s.run env ctx sched).current.toList ∧
        serialFrom 0 (s.run env ctx sched).history =
          some (s.run env ctx sched).inflight.length ∧
        (∀ ev ∈ (s.run env ctx sched).history, ev.who = Goroutine.submitter) ∧
        (s.run env ctx sched).scanner.quiet ∧ (s.run env ctx sched).debouncer.quiet := by
  intro sched
  induction sched with
  | nil => intro s h1 h2 h3 h4 h5; exact ⟨h1, h2, h3, h4, h5⟩
  | cons mv rest ih =>
    intro s h1 h2 h3 h4 h5
    obtain ⟨k1, k2, k3, k4, k5⟩ := sys_step_keeps env ctx s mv h1 h2 h3 h4 h5
    exact ih _ k1 k2 k3 k4 k5

/-- The `merge` part of the pipeline makes the steps of `merge`: a step of the
pipeline is a step of `merge` or leaves it alone. -/
theorem sys_step_merge (env : Env) (ctx : Ctx) (s : SysState) (mv : SysMove) :
    (s.step env ctx mv).m = s.m ∨ ∃ m, (s.step env ctx mv).m = s.m.step m := by
  cases mv with
  | ret =>
    left
    cases hc : s.current <;> simp [SysState.step, hc]
  | scan =>
    left
    simp only [SysState.step, SysState.routineStep]
    split
    · split <;> rfl
    · split
      · split <;> rfl
      · rfl
  | debounce =>
    left
    simp only [SysState.step, SysState.routineStep]
    split
    · split <;> rfl
    · split
      · split <;> rfl
      · rfl
  | merge m =>
    cases m with
    | recv i => exact Or.inr ⟨Move.recv i, rfl⟩
    | send i => exact Or.inr ⟨Move.send i, rfl⟩
    | close => exact Or.inr ⟨Move.close, rfl⟩
    | read =>
      cases hc : s.current with
      | some c => left; simp [SysState.step, hc]
      | none =>
        right
        refine ⟨Move.read, ?_⟩
        simp only [SysState.step, hc]
        split <;> rfl

theorem sys_run_merge (env : Env) (ctx : Ctx) :
    ∀ (sched : List SysMove) (s : SysState),
      ∃ moves, (s.run env ctx sched).m = s.m.run moves := by
  intro sched
  induction sched with
  | nil => intro s; exact ⟨[], rfl⟩
  | cons mv rest ih =>
    intro s
    obtain ⟨moves, hm⟩ := ih (s.step env ctx mv)
    rcases sys_step_merge env ctx s mv with h | ⟨m, h⟩
    · exact ⟨moves, by simpa [SysState.run, h] using hm⟩
    · exact ⟨m :: moves, by simpa [SysState.run, MergeState.run, h] using hm⟩

/-- C4.  For every configuration, every sequence `live` of events of the live
receiver, every number of triggers of the portfolio scanner, every sequence of
bundle revisions, every assignment of results to the write calls and every
schedule that lets the scanner (running its scan passes), the debouncer, the
goroutines of `merge`, the submitter loop and the returns of the write calls run
in any order: in the state reached at most one write call is in progress, and it
is the one the submitter loop is inside of; in the history of the write calls
every call returned before the next one started; every write call of the history
was made by the submitter loop, none by the scanner, the debouncer or a goroutine
of `merge`; a step of the scanner, of the debouncer or of a goroutine of `merge`
starts no write call and ends none; and the submitter reads what `merge` delivers
from the channel of the live receiver and the channel of the scanner. -/
theorem submissions_never_overlap (opts : Options) (env : Env) (ctx : Ctx)
    (live : List AuditResult) (revisions : List String) (triggers : Nat)
    (sched : List SysMove) :
    ((SysState.init opts env ctx live revisions triggers).run env ctx sched).inflight.length
      ≤ 1 ∧
    ((SysState.init opts env ctx live revisions triggers).run env ctx sched).inflight =
      ((SysState.init opts env ctx live revisions triggers).run env ctx sched).current.toList ∧
    serial ((SysState.init opts env ctx live revisions triggers).run env ctx sched).history
      = true ∧
    (∀ ev ∈ ((SysState.init opts env ctx live revisions triggers).run env ctx sched).history,
      ev.who = Goroutine.submitter) ∧
    (∀ c ∈ calls (scannerTrace opts env ctx triggers) ++ calls (debouncerTrace revisions),
      c.isWrite = false) ∧
    (∀ mv, mv ≠ SysMove.merge Move.read → mv ≠ SysMove.ret →
      (((SysState.init opts env ctx live revisions triggers).run env ctx sched).step env ctx
          mv).inflight =
        ((SysState.init opts env ctx live revisions triggers).run env ctx sched).inflight ∧
      (((SysState.init opts env ctx live revisions triggers).run env ctx sched).step env ctx
          mv).history =
        ((SysState.init opts env ctx live revisions triggers).run env ctx sched).history) ∧
    (∃ moves, ((SysState.init opts env ctx live revisions triggers).run env ctx sched).m =
      (merge [live, events (scannerTrace opts env ctx triggers)]).run moves) := by
  have hs : (SysState.init opts env ctx live revisions triggers).scanner.quiet :=
    ⟨fun c hc => scannerTrace_no_write opts env ctx c triggers hc,
      fun c hc => by simp [SysState.init] at hc⟩
  have hd : (SysState.init opts env ctx live revisions triggers).debouncer.quiet :=
    ⟨fun c hc => absurd hc (debouncerTrace_no_call c revisions),
      fun c hc => by simp [SysState.init] at hc⟩
  obtain ⟨h1, h2, h3, h4, h5⟩ := sys_run_keeps env ctx sched
    (SysState.init opts env ctx live revisions triggers) rfl rfl
    (fun ev hev => by simp [SysState.init] at hev) hs hd
  refine ⟨?_, h1, ?_, h3, ?_, ?_,
    sys_run_merge env ctx sched (SysState.init opts env ctx live revisions triggers)⟩
  · rw [h1]
    cases ((SysState.init opts env ctx live revisions triggers).run env ctx sched).current <;>
      simp
  · simp [serial, h2]
  · intro c hc
    rw [List.mem_append, mem_calls, mem_calls] at hc
    rcases hc with hc | hc
    · exact scannerTrace_no_write opts env ctx c triggers hc
    · exact absurd hc (debouncerTrace_no_call c revisions)
  · intro mv hmv hret
    cases mv with
    | ret => exact absurd rfl hret
    | scan =>
      simp only [SysState.step, routineStep_of_quiet env _ _ _ h4]
      exact ⟨trivial, trivial⟩
    | debounce =>
      simp only [SysState.step, routineStep_of_quiet env _ _ _ h5]
      exact ⟨trivial, trivial⟩
    | merge m =>
      cases m with
      | recv i => exact ⟨rfl, rfl⟩
      | send i => exact ⟨rfl, rfl⟩
      | close => exact ⟨rfl, rfl⟩
      | read => exact absurd rfl hmv

/-- Witness of C4: in the sample run the scanner runs a part of its pass and the
live receiver and the scanner both deliver while the first write call is in
progress; the second write call starts after the first has returned; both are
made by the submitter loop, a step of the scanner changes nothing about the
calls, and none of the twelve calls of the scan pass is a write call. -/
theorem submissions_never_overlap_witness :
    ((SysState.init sampleOpts (sampleEnv true) Ctx.background liveEvents ["r1"] 1).run
        (sampleEnv true) Ctx.background samplePipelineSchedule).history =
      [CallEvent.started Goroutine.submitter (Call.submitAnalysis (egCtx Ctx.background)
          { component := 11, project := 1, vulnerability := 21, state := "NOT_AFFECTED",
            justification := "", response := "", comment := "approved", suppressed := true }),
        CallEvent.returned Goroutine.submitter (Call.submitAnalysis (egCtx Ctx.background)
          { component := 11, project := 1, vulnerability := 21, state := "NOT_AFFECTED",
            justification := "", response := "", comment := "approved", suppressed := true })
          none,
        CallEvent.started Goroutine.submitter (Call.submitAnalysis (egCtx Ctx.background)
          { component := 11, project := 1, vulnerability := 21, state := "NOT_AFFECTED",
            justification := "", response := "", comment := "approved",
            suppressed := true })] ∧
    (((SysState.init sampleOpts (sampleEnv true) Ctx.background liveEvents ["r1"] 1).run
        (sampleEnv true) Ctx.background samplePipelineSchedule).step (sampleEnv true)
          Ctx.background SysMove.scan).inflight =
      ((SysState.init sampleOpts (sampleEnv true) Ctx.background liveEvents ["r1"] 1).run
        (sampleEnv true) Ctx.background samplePipelineSchedule).inflight ∧
    (∀ c ∈ calls (scannerTrace sampleOpts (sampleEnv true) Ctx.background 1) ++
        calls (debouncerTrace ["r1"]), c.isWrite = false) ∧
    (calls (scannerTrace sampleOpts (sampleEnv true) Ctx.background 1)).length = 12 :=
  ⟨by decide,
    ((submissions_never_overlap sampleOpts (sampleEnv true) Ctx.background liveEvents ["r1"] 1
      samplePipelineSchedule).2.2.2.2.2.1 SysMove.scan (by decide) (by decide)).1,
    (submissions_never_overlap sampleOpts (sampleEnv true) Ctx.background liveEvents ["r1"] 1
      samplePipelineSchedule).2.2.2.2.1,
    by decide⟩

end Dtapac
